import Mathlib

/-!
Shallow embedding of the `Digraph` class template from `Directed_Graph.hpp`.

Modelling conventions:
* `std::map<int, DigraphVertex>` is an association list `List (Int × DigraphVertex V E)`
  whose keys are strictly increasing (`WfMap`); `std::map` iteration order is key order.
* C++ `int` vertex keys are `Int`; `double` edge weights are restricted to the
  non-negative integral doubles, i.e. `Nat`, on which all C++ `double`/`int`
  arithmetic in the source is exact.
* Functions that can throw return `Except Err _`; mutating member functions return
  the pair (object state on exit, thrown error if any), so that partial mutation
  before a throw would be observable.
* `std::vector::at` / `std::map::at` out-of-range failures are `Err.outOfRange`
  (`std::out_of_range`), distinct from `DigraphException` (`Err.digraph`).
-/

namespace DG

inductive Err where
  | digraph (reason : String)
  | outOfRange
deriving DecidableEq, Repr

structure DigraphEdge (E : Type) where
  fromVertex : Int
  toVertex : Int
  einfo : E
deriving DecidableEq, Repr

structure DigraphVertex (V E : Type) where
  vinfo : V
  edges : List (DigraphEdge E)
deriving DecidableEq, Repr

abbrev Digraph (V E : Type) := List (Int × DigraphVertex V E)

variable {V E : Type}

/-- Keys of the underlying `std::map`. -/
def keysOf (g : Digraph V E) : List Int := g.map Prod.fst

/-- `graph.count(k) == 1`, i.e. membership of a key. -/
def mapContains (g : Digraph V E) (k : Int) : Bool := g.any (fun p => p.1 == k)

/-- The entry stored under key `k` (`std::map` keys are unique, so the first match). -/
def mapLookup (g : Digraph V E) (k : Int) : Option (DigraphVertex V E) :=
  (g.find? (fun p => p.1 == k)).map Prod.snd

/-- `std::map::insert`: insert in key order, no effect if the key is present. -/
def mapInsert (g : Digraph V E) (k : Int) (vx : DigraphVertex V E) : Digraph V E :=
  match g with
  | [] => [(k, vx)]
  | (k2, vx2) :: rest =>
    if k < k2 then (k, vx) :: (k2, vx2) :: rest
    else if k = k2 then (k2, vx2) :: rest
    else (k2, vx2) :: mapInsert rest k vx

/-- `std::map::erase(key)`. -/
def mapErase (g : Digraph V E) (k : Int) : Digraph V E := g.filter (fun p => p.1 != k)

/-- `std::vector::at` (negative indices convert to huge `size_t`, hence out of range). -/
def vecAt {α : Type} (xs : List α) (i : Int) : Except Err α :=
  if i < 0 then .error .outOfRange
  else match xs.get? i.toNat with
    | some a => .ok a
    | none => .error .outOfRange

/-- Checked element assignment through `std::vector::at`. -/
def vecSet {α : Type} (xs : List α) (i : Int) (a : α) : Except Err (List α) :=
  if i < 0 then .error .outOfRange
  else if i.toNat < xs.length then .ok (xs.set i.toNat a) else .error .outOfRange

/-- `Digraph::vertices()`. -/
def vertices (g : Digraph V E) : List Int := g.map Prod.fst

/-- `Digraph::edges()`: all (from, to) pairs, in map and adjacency-list order. -/
def edgesAll (g : Digraph V E) : List (Int × Int) :=
  (g.map (fun p => p.2.edges.map (fun e => (e.fromVertex, e.toVertex)))).flatten

/-- `Digraph::edges(vertex)`: the (from, to) pairs stored under `vertex`. -/
def edgesFrom (g : Digraph V E) (vertex : Int) : Except Err (List (Int × Int)) :=
  if !mapContains g vertex then .error (.digraph "Vertex does not exist!")
  else .ok (((g.filter (fun p => p.1 == vertex)).map
    (fun p => p.2.edges.map (fun e => (e.fromVertex, e.toVertex)))).flatten)

/-- `Digraph::vertexInfo`. -/
def vertexInfo (g : Digraph V E) (vertex : Int) : Except Err V :=
  if !mapContains g vertex then .error (.digraph "Vertex does not exist!")
  else match mapLookup g vertex with
    | some vx => .ok vx.vinfo
    | none => .error (.digraph "Vertex does not exist!")

/-- `Digraph::edgeInfo`: first edge in list order whose target matches. -/
def edgeInfo (g : Digraph V E) (fromVertex toVertex : Int) : Except Err E :=
  if !mapContains g fromVertex || !mapContains g toVertex then
    .error (.digraph "Vertice(s) do not exist!")
  else match mapLookup g fromVertex with
    | some vx =>
      match vx.edges.find? (fun e => e.toVertex == toVertex) with
      | some e => .ok e.einfo
      | none => .error (.digraph "Edge does not exist!")
    | none => .error (.digraph "Edge does not exist!")

/-- `Digraph::vertexCount()`. -/
def vertexCount (g : Digraph V E) : Nat := g.length

/-- `Digraph::edgeCount()`. -/
def edgeCount (g : Digraph V E) : Nat := (g.map (fun p => p.2.edges.length)).sum

/-- `Digraph::edgeCount(vertex)`. -/
def edgeCountV (g : Digraph V E) (vertex : Int) : Except Err Nat :=
  if !mapContains g vertex then .error (.digraph "Vertex does not exist!")
  else .ok (((g.filter (fun p => p.1 == vertex)).map (fun p => p.2.edges.length)).sum)

/-- `Digraph::addVertex`. -/
def addVertex (g : Digraph V E) (vertex : Int) (vinfo : V) : Digraph V E × Option Err :=
  if mapContains g vertex then (g, some (.digraph "Vertex already exists!"))
  else (mapInsert g vertex ⟨vinfo, []⟩, none)

/-- `Digraph::addEdge`: the throw happens inside the scan, before the `push_back`. -/
def addEdge (g : Digraph V E) (fromVertex toVertex : Int) (einfo : E) :
    Digraph V E × Option Err :=
  if !mapContains g fromVertex || !mapContains g toVertex then
    (g, some (.digraph "Vertice(s) do not exist!"))
  else match mapLookup g fromVertex with
    | none => (g, none)
    | some vx =>
      if vx.edges.any (fun e => e.toVertex == toVertex) then
        (g, some (.digraph "Edge already exists!"))
      else
        (g.map (fun p =>
          if p.1 = fromVertex then
            (p.1, ⟨p.2.vinfo, p.2.edges ++ [⟨fromVertex, toVertex, einfo⟩]⟩)
          else p), none)

/--
One pass of the source's erase loop
`for(j = begin; j != end; ++j) { if(j->toVertex == v) j = erase(j); }`:
after `j = erase(j)`, the `++j` of the `for` statement skips the element that
followed the erased one.  Returns (resulting list, iterator wrapped past `end()`
because the last element was erased, something was erased).  The wrap reflects
what libstdc++'s circular sentinel list does on `++end()`: iteration resumes
from `begin()`, i.e. another pass over the current list.
-/
def erasePass (v : Int) : List (DigraphEdge E) → List (DigraphEdge E) × Bool × Bool
  | [] => ([], false, false)
  | [e] => if e.toVertex = v then ([], true, true) else ([e], false, false)
  | e :: f :: rest2 =>
    if e.toVertex = v then
      let r := erasePass v rest2
      (f :: r.1, r.2.1, true)
    else
      let r := erasePass v (f :: rest2)
      (e :: r.1, r.2.1, r.2.2)

theorem erasePass_length {v : Int} : ∀ es : List (DigraphEdge E),
    (erasePass v es).1.length ≤ es.length ∧
      ((erasePass v es).2.1 = true → (erasePass v es).1.length < es.length) := by
  intro es
  induction es using erasePass.induct (v := v) with
  | case1 => simp [erasePass]
  | case2 e h => simp [erasePass, h]
  | case3 e h => simp [erasePass, h]
  | case4 e f rest2 h ih =>
    simp only [erasePass, if_pos h]
    refine ⟨?_, fun _ => ?_⟩ <;> simp <;> omega
  | case5 e f rest2 h ih =>
    simp only [erasePass, if_neg h]
    constructor
    · simpa using Nat.succ_le_succ ih.1
    · intro hw
      simpa using Nat.succ_lt_succ (ih.2 hw)

/--
The full erase loop: on an iterator wrap (last element erased) iteration resumes
from the front of the current list.  Returns (resulting list, anything erased).
-/
def eraseLoop (v : Int) (es : List (DigraphEdge E)) : List (DigraphEdge E) × Bool :=
  match h : erasePass v es with
  | (r, true, _) => ((eraseLoop v r).1, true)
  | (r, false, b) => (r, b)
termination_by es.length
decreasing_by
  have := (erasePass_length (v := v) es).2
  rw [h] at this
  exact this rfl

/-- `Digraph::removeVertex`: clear the vertex's own list, run the in-edge erase
loop over every adjacency list, then erase the map entry. -/
def removeVertex (g : Digraph V E) (vertex : Int) : Digraph V E × Option Err :=
  if !mapContains g vertex then (g, some (.digraph "Vertex does not exist!"))
  else
    let g1 := g.map (fun p =>
      (p.1, DigraphVertex.mk p.2.vinfo
        (eraseLoop vertex (if p.1 = vertex then [] else p.2.edges)).1))
    (mapErase g1 vertex, none)

/-- `Digraph::removeEdge`: erase loop on the source vertex's list; throws at the
end when nothing was erased. -/
def removeEdge (g : Digraph V E) (fromVertex toVertex : Int) : Digraph V E × Option Err :=
  if !mapContains g fromVertex || !mapContains g toVertex then
    (g, some (.digraph "Vertice(s) do not exist!"))
  else
    let step := g.map (fun p =>
      if p.1 = fromVertex then
        ((p.1, DigraphVertex.mk p.2.vinfo (eraseLoop toVertex p.2.edges).1),
          (eraseLoop toVertex p.2.edges).2)
      else ((p.1, p.2), false))
    if step.any Prod.snd then (step.map Prod.fst, none)
    else (step.map Prod.fst, some (.digraph "Edge does not exist!"))

/-- Move construction `Digraph(Digraph&& d)`: swap with the default-constructed
empty map.  Result: (new object's state, moved-from object's state). -/
def moveConstruct (d : Digraph V E) : Digraph V E × Digraph V E := (d, [])

/-- Move assignment `operator=(Digraph&& d)` for distinct objects: a swap.
Result: (assigned-to object's state, moved-from object's state).  (When
`this == &d` the source swaps with nothing and both states are unchanged.) -/
def moveAssign (dst src : Digraph V E) : Digraph V E × Digraph V E := (src, dst)

/--
`Digraph::depthFirst`, with explicit fuel standing for the C++ call stack: scan
for the entry of `vertex`, skip if already in `tracker`, otherwise push it and
recurse over its outgoing edges in list order.  (The C++ parameter is typed
`VertexInfo`, which only instantiates when `VertexInfo` converts to `int`; the
comparisons are on the `int` vertex number, modelled directly.)
-/
def dfsFuel (g : Digraph V E) : Nat → Int → List Int → List Int
  | 0, _, tracker => tracker
  | fuel+1, vertex, tracker =>
    match mapLookup g vertex with
    | none => tracker
    | some vx =>
      if vertex ∈ tracker then tracker
      else vx.edges.foldl (fun tr e => dfsFuel g fuel e.toVertex tr) (tracker ++ [vertex])

/-- `Digraph::depthFirst` with fuel sufficient for the recursion to complete
(shown by `dfsFuel_stable`). -/
def depthFirst (g : Digraph V E) (vertex : Int) (tracker : List Int) : List Int :=
  dfsFuel g (g.length + 1) vertex tracker

/-- `Digraph::isStronglyConnected()`. -/
def isStronglyConnected (g : Digraph V E) : Bool :=
  g.all (fun p => vertexCount g == (depthFirst g p.1 []).length)

/-- There is an edge from `a` to `b` stored in the graph. -/
def stepRel (g : Digraph V E) (a b : Int) : Prop :=
  ∃ vx, mapLookup g a = some vx ∧ ∃ e ∈ vx.edges, e.toVertex = b

/-- `b` is reachable from `a` by following outgoing edges. -/
def Reach (g : Digraph V E) : Int → Int → Prop := Relation.ReflTransGen (stepRel g)

/-- Number of graph keys not yet in the tracker: the measure that bounds the
depth-first recursion. -/
def unvisited (g : Digraph V E) (tracker : List Int) : Nat :=
  ((keysOf g).filter (fun k => decide (k ∉ tracker))).length

/-- `std::priority_queue<pair<int,double>, ..., compare>` with
`compare = [](l, r){ return l.second > r.second; }`: the element popped is one
whose `.second` component (which the source fills with the vertex number) is
minimal; ties are implementation-defined, modelled as leftmost. -/
def popTop : List (Int × Int) → Option ((Int × Int) × List (Int × Int))
  | [] => none
  | e :: rest =>
    match popTop rest with
    | none => some (e, [])
    | some (m, r) => if e.2 ≤ m.2 then some (e, rest) else some (m, e :: r)

/-- The relaxation scan over the popped vertex's outgoing edges:
`if(dv.at(to) > dv.at(v) + w) { dv.at(to) = ...; pv update if present; pq.push }`. -/
def relaxEdges (w : E → Nat) (vertex : Int) :
    List (DigraphEdge E) → List Int → List (Int × Int) → List (Int × Int) →
    Except Err (List Int × List (Int × Int) × List (Int × Int))
  | [], dv, pv, pq => .ok (dv, pv, pq)
  | e :: rest, dv, pv, pq =>
    match vecAt dv e.toVertex with
    | .error er => .error er
    | .ok dto =>
      match vecAt dv vertex with
      | .error er => .error er
      | .ok dvv =>
        if dvv + (w e.einfo : Int) < dto then
          match vecSet dv e.toVertex (dvv + (w e.einfo : Int)) with
          | .error er => .error er
          | .ok dv2 =>
            relaxEdges w vertex rest dv2
              (pv.map (fun q => if q.1 = e.toVertex then (q.1, vertex) else q))
              (pq ++ [(dvv + (w e.einfo : Int), e.toVertex)])
        else relaxEdges w vertex rest dv pv pq

theorem popTop_length_lt (pq : List (Int × Int)) : ∀ (rest : List (Int × Int))
    (ent : Int × Int), popTop pq = some (ent, rest) → rest.length < pq.length := by
  induction pq using popTop.induct with
  | case1 => intro rest ent h; simp [popTop] at h
  | case2 e tl htl =>
    intro rest ent h
    simp only [popTop, htl] at h
    cases h
    simp
  | case3 e tl m r htl hle ih =>
    intro rest ent h
    simp only [popTop, htl, if_pos hle] at h
    cases h
    simp
  | case4 e tl m r htl hle ih =>
    intro rest ent h
    simp only [popTop, htl, if_neg hle] at h
    cases h
    have := ih _ _ htl
    simpa using Nat.succ_lt_succ this

theorem count_false_set_true : ∀ (l : List Bool) (n : Nat),
    l.get? n = some false → (l.set n true).count false < l.count false := by
  intro l
  induction l with
  | nil => intro n h; simp at h
  | cons b tl ih =>
    intro n h
    cases n with
    | zero =>
      cases h
      simp [List.count_cons]
    | succ n =>
      simp only [List.get?] at h
      have := ih n h
      simp only [List.set, List.count_cons]
      omega

theorem vecSet_count_false_lt (kv kv2 : List Bool) (i : Int)
    (hat : vecAt kv i = .ok false) (hset : vecSet kv i true = .ok kv2) :
    kv2.count false < kv.count false := by
  unfold vecAt at hat
  unfold vecSet at hset
  by_cases hneg : i < 0
  · simp [hneg] at hat
  · rw [if_neg hneg] at hat hset
    cases hget : kv.get? i.toNat with
    | none => rw [hget] at hat; cases hat
    | some b =>
      rw [hget] at hat
      cases hat
      by_cases hlen : i.toNat < kv.length
      · rw [if_pos hlen] at hset
        cases hset
        exact count_false_set_true kv i.toNat hget
      · rw [if_neg hlen] at hset
        cases hset

/--
The main Dijkstra loop of `Digraph::findShortestPaths`.  State: `kv` (settled
flags), `dv` (tentative distances), `pv` (predecessor map), `pq` (the priority
queue).  Returns the final `pv` together with the pop trace: for each iteration
the popped `(distance, vertex)` entry and the remaining queue at that moment.
Terminates because each iteration either settles an unsettled vertex or shrinks
the queue.
-/
def dijkstraLoop (g : Digraph V E) (w : E → Nat) (kv : List Bool) (dv : List Int)
    (pv : List (Int × Int)) (pq : List (Int × Int)) :
    Except Err (List (Int × Int) × List ((Int × Int) × List (Int × Int))) :=
  match hpq : popTop pq with
  | none => .ok (pv, [])
  | some (ent, rest) =>
    match hat : vecAt kv ent.2 with
    | .error e => .error e
    | .ok true =>
      match dijkstraLoop g w kv dv pv rest with
      | .error e => .error e
      | .ok (pvR, tr) => .ok (pvR, (ent, rest) :: tr)
    | .ok false =>
      match hset : vecSet kv ent.2 true with
      | .error e => .error e
      | .ok kv2 =>
        match mapLookup g ent.2 with
        | none =>
          match dijkstraLoop g w kv2 dv pv rest with
          | .error e => .error e
          | .ok (pvR, tr) => .ok (pvR, (ent, rest) :: tr)
        | some vx =>
          match relaxEdges w ent.2 vx.edges dv pv rest with
          | .error e => .error e
          | .ok (dv2, pv2, pq2) =>
            match dijkstraLoop g w kv2 dv2 pv2 pq2 with
            | .error e => .error e
            | .ok (pvR, tr) => .ok (pvR, (ent, rest) :: tr)
termination_by (kv.count false, pq.length)
decreasing_by
  · apply Prod.Lex.right
    exact popTop_length_lt pq rest ent hpq
  · apply Prod.Lex.left
    exact vecSet_count_false_lt kv kv2 ent.2 hat hset
  · apply Prod.Lex.left
    exact vecSet_count_false_lt kv kv2 ent.2 hat hset

/-- Fueled twin of `dijkstraLoop`, used to evaluate concrete runs (`none` means
the fuel ran out before the queue emptied). -/
def dijkstraLoopFuel (g : Digraph V E) (w : E → Nat) :
    Nat → List Bool → List Int → List (Int × Int) → List (Int × Int) →
    Option (Except Err (List (Int × Int) × List ((Int × Int) × List (Int × Int))))
  | 0, _, _, _, _ => none
  | fuel+1, kv, dv, pv, pq =>
    match popTop pq with
    | none => some (.ok (pv, []))
    | some (ent, rest) =>
      match vecAt kv ent.2 with
      | .error e => some (.error e)
      | .ok true =>
        match dijkstraLoopFuel g w fuel kv dv pv rest with
        | some (.ok (pvR, tr)) => some (.ok (pvR, (ent, rest) :: tr))
        | some (.error e) => some (.error e)
        | none => none
      | .ok false =>
        match vecSet kv ent.2 true with
        | .error e => some (.error e)
        | .ok kv2 =>
          match mapLookup g ent.2 with
          | none =>
            match dijkstraLoopFuel g w fuel kv2 dv pv rest with
            | some (.ok (pvR, tr)) => some (.ok (pvR, (ent, rest) :: tr))
            | some (.error e) => some (.error e)
            | none => none
          | some vx =>
            match relaxEdges w ent.2 vx.edges dv pv rest with
            | .error e => some (.error e)
            | .ok (dv2, pv2, pq2) =>
              match dijkstraLoopFuel g w fuel kv2 dv2 pv2 pq2 with
              | some (.ok (pvR, tr)) => some (.ok (pvR, (ent, rest) :: tr))
              | some (.error e) => some (.error e)
              | none => none

/-- The distance sentinel of the source (`2147000000`). -/
def INFSENTINEL : Int := 2147000000

/-- The set-up phase of `Digraph::findShortestPaths` before the main loop:
`kv`, `pv`, `dv`, `pv.at(startVertex) = startVertex`, `dv.at(startVertex) = 0`,
and the queue seeded with `(0, startVertex)`. -/
def dijkstraSetup (g : Digraph V E) (startVertex : Int) :
    Except Err (List Bool × List Int × List (Int × Int) × List (Int × Int)) :=
  let kv : List Bool := List.replicate (vertexCount g + 1) false
  let pv : List (Int × Int) := g.map (fun p => (p.1, (-1 : Int)))
  let dv : List Int := List.replicate (vertexCount g + 1) INFSENTINEL
  match pv.find? (fun q => q.1 == startVertex) with
  | none => .error .outOfRange
  | some _ =>
    match vecSet dv startVertex 0 with
    | .error e => .error e
    | .ok dv2 =>
      .ok (kv, dv2,
        pv.map (fun q => if q.1 = startVertex then (q.1, startVertex) else q),
        [((0 : Int), startVertex)])

/-- The final pass: any vertex whose predecessor is still the `-1` sentinel is
mapped to itself. -/
def finalizePv (pv : List (Int × Int)) : List (Int × Int) :=
  pv.map (fun q => if q.2 = -1 then (q.1, q.1) else q)

/-- `Digraph::findShortestPaths(startVertex, edgeWeightFunc)`. -/
def findShortestPaths (g : Digraph V E) (startVertex : Int) (edgeWeightFunc : E → Nat) :
    Except Err (List (Int × Int)) :=
  match dijkstraSetup g startVertex with
  | .error e => .error e
  | .ok (kv, dv, pv, pq) =>
    match dijkstraLoop g edgeWeightFunc kv dv pv pq with
    | .error e => .error e
    | .ok (pvR, _) => .ok (finalizePv pvR)

/-- The pop trace of `Digraph::findShortestPaths`: for every iteration of the
main loop, the popped `(distance, vertex)` entry and the rest of the queue. -/
def findShortestPathsTrace (g : Digraph V E) (startVertex : Int)
    (edgeWeightFunc : E → Nat) : Except Err (List ((Int × Int) × List (Int × Int))) :=
  match dijkstraSetup g startVertex with
  | .error e => .error e
  | .ok (kv, dv, pv, pq) =>
    match dijkstraLoop g edgeWeightFunc kv dv pv pq with
    | .error e => .error e
    | .ok (_, tr) => .ok tr

/-- There is an edge from `a` to `b` carrying weight `c` under `w`. -/
def edgeW (g : Digraph V E) (w : E → Nat) (a b : Int) (c : Nat) : Prop :=
  ∃ vx, mapLookup g a = some vx ∧ ∃ e ∈ vx.edges, e.toVertex = b ∧ w e.einfo = c

/-- Walks from `a` to `b` of total weight `n`, following stored edges. -/
inductive WalkW (g : Digraph V E) (w : E → Nat) : Int → Int → Nat → Prop where
  | refl (v : Int) : WalkW g w v v 0
  | tail {a b c : Int} {n m : Nat} :
      WalkW g w a b n → edgeW g w b c m → WalkW g w a c (n + m)

/-- `p` is a valid shortest-path predecessor of `v` for source `s`: some walk
reaches `p` and then takes an edge `p → v`, and no walk from `s` to `v` is
cheaper than that one. -/
def ValidSPPred (g : Digraph V E) (w : E → Nat) (s v p : Int) : Prop :=
  ∃ n m, WalkW g w s p n ∧ edgeW g w p v m ∧ ∀ k, WalkW g w s v k → n + m ≤ k

theorem erasePass_id {v : Int} : ∀ es : List (DigraphEdge E),
    (∀ e ∈ es, e.toVertex ≠ v) → erasePass v es = (es, false, false) := by
  intro es
  induction es using erasePass.induct (v := v) with
  | case1 => intro _; rfl
  | case2 e h => intro hno; exact absurd h (hno e (by simp))
  | case3 e h => intro hno; simp [erasePass, h]
  | case4 e f rest2 h ih => intro hno; exact absurd h (hno e (by simp))
  | case5 e f rest2 h ih =>
    intro hno
    have := ih (fun x hx => hno x (List.mem_cons_of_mem e hx))
    simp [erasePass, h, this]

theorem erasePass_sublist {v : Int} : ∀ es : List (DigraphEdge E),
    (erasePass v es).1.Sublist es := by
  intro es
  induction es using erasePass.induct (v := v) with
  | case1 => simp [erasePass]
  | case2 e h => simp [erasePass, h]
  | case3 e h => simp [erasePass, h]
  | case4 e f rest2 h ih =>
    simp only [erasePass, if_pos h]
    exact List.Sublist.cons _ (List.Sublist.cons₂ _ ih)
  | case5 e f rest2 h ih =>
    simp only [erasePass, if_neg h]
    exact List.Sublist.cons₂ _ ih

theorem erasePass_flag_false {v : Int} : ∀ es : List (DigraphEdge E),
    (erasePass v es).2.2 = false → erasePass v es = (es, false, false) := by
  intro es
  induction es using erasePass.induct (v := v) with
  | case1 => intro _; rfl
  | case2 e h => intro hb; simp [erasePass, h] at hb
  | case3 e h => intro _; simp [erasePass, h]
  | case4 e f rest2 h ih => intro hb; simp [erasePass, if_pos h] at hb
  | case5 e f rest2 h ih =>
    intro hb
    simp only [erasePass, if_neg h] at hb ⊢
    have := ih hb
    simp [this]

theorem erasePass_no_match {v : Int} : ∀ es : List (DigraphEdge E),
    (es.filter (fun e => e.toVertex == v)).length ≤ 1 →
    ∀ e ∈ (erasePass v es).1, e.toVertex ≠ v := by
  intro es
  induction es using erasePass.induct (v := v) with
  | case1 => intro _ e he; simp [erasePass] at he
  | case2 e h => intro _ x hx; simp [erasePass, h] at hx
  | case3 e h =>
    intro _ x hx
    simp [erasePass, h] at hx
    simp [hx, h]
  | case4 e f rest2 h ih =>
    intro hcnt x hx
    have hrest : ((f :: rest2).filter (fun e => e.toVertex == v)).length = 0 := by
      have hfc : ((e :: f :: rest2).filter (fun x => x.toVertex == v)) =
          e :: ((f :: rest2).filter (fun x => x.toVertex == v)) := by
        simp [List.filter_cons, h]
      rw [hfc, List.length_cons] at hcnt
      omega
    have hnone : ∀ y ∈ f :: rest2, y.toVertex ≠ v := by
      intro y hy hyv
      have hmem : y ∈ (f :: rest2).filter (fun e => e.toVertex == v) := by
        simp [List.mem_filter, hy, hyv]
      rw [List.length_eq_zero] at hrest
      simp [hrest] at hmem
    simp only [erasePass, if_pos h] at hx
    rcases List.mem_cons.mp hx with rfl | hx2
    · exact hnone x (by simp)
    · have hsub := erasePass_sublist (v := v) rest2
      exact hnone x (List.mem_cons_of_mem f (hsub.mem hx2))
  | case5 e f rest2 h ih =>
    intro hcnt x hx
    simp only [erasePass, if_neg h] at hx
    rcases List.mem_cons.mp hx with rfl | hx2
    · exact h
    · apply ih _ x hx2
      calc ((f :: rest2).filter (fun e => e.toVertex == v)).length
          ≤ ((e :: f :: rest2).filter (fun e => e.toVertex == v)).length := by
            simp only [List.filter]
            cases hb : (e.toVertex == v) <;> simp
        _ ≤ 1 := hcnt

theorem eraseLoop_eq_wrap {v : Int} {es r : List (DigraphEdge E)} {b : Bool}
    (h : erasePass v es = (r, true, b)) : eraseLoop v es = ((eraseLoop v r).1, true) := by
  rw [eraseLoop]
  split
  next r2 x h2 => rw [h] at h2; simp at h2; simp [h2]
  next r2 b2 h2 => rw [h] at h2; simp at h2

theorem eraseLoop_eq_done {v : Int} {es r : List (DigraphEdge E)} {b : Bool}
    (h : erasePass v es = (r, false, b)) : eraseLoop v es = (r, b) := by
  rw [eraseLoop]
  split
  next r2 x h2 => rw [h] at h2; simp at h2
  next r2 b2 h2 => rw [h] at h2; simp at h2; simp [h2]

theorem eraseLoop_id {v : Int} (es : List (DigraphEdge E))
    (hno : ∀ e ∈ es, e.toVertex ≠ v) : eraseLoop v es = (es, false) :=
  eraseLoop_eq_done (erasePass_id es hno)

theorem eraseLoop_not_erased {v : Int} (es : List (DigraphEdge E))
    (h : (eraseLoop v es).2 = false) : (eraseLoop v es).1 = es := by
  cases hp : erasePass v es with
  | mk r wb =>
    obtain ⟨w, b⟩ := wb
    cases w with
    | true => rw [eraseLoop_eq_wrap hp] at h; cases h
    | false =>
      cases b with
      | true => rw [eraseLoop_eq_done hp] at h; cases h
      | false =>
        have hid := erasePass_flag_false (v := v) es (by rw [hp])
        rw [hp] at hid
        cases hid
        rw [eraseLoop_eq_done hp]

theorem eraseLoop_no_match {v : Int} (es : List (DigraphEdge E))
    (hcnt : (es.filter (fun e => e.toVertex == v)).length ≤ 1) :
    ∀ e ∈ (eraseLoop v es).1, e.toVertex ≠ v := by
  cases hp : erasePass v es with
  | mk r wb =>
    obtain ⟨w, b⟩ := wb
    have hall : ∀ e ∈ r, e.toVertex ≠ v := by
      have hh := erasePass_no_match (v := v) es hcnt
      rw [hp] at hh
      exact hh
    cases w with
    | false => rw [eraseLoop_eq_done hp]; exact hall
    | true =>
      rw [eraseLoop_eq_wrap hp, eraseLoop_id r hall]
      exact hall

theorem eraseLoop_sublist {v : Int} (es : List (DigraphEdge E)) :
    (eraseLoop v es).1.Sublist es := by
  induction es using eraseLoop.induct (v := v) with
  | case1 es r x h ih =>
    rw [eraseLoop_eq_wrap h]
    have h1 : r.Sublist es := by
      have hs := erasePass_sublist (v := v) es
      rw [h] at hs
      exact hs
    exact ih.trans h1
  | case2 es r b h =>
    rw [eraseLoop_eq_done h]
    have hs := erasePass_sublist (v := v) es
    rw [h] at hs
    exact hs

theorem dijkstraLoop_eq_of_fuel (g : Digraph V E) (w : E → Nat) :
    ∀ (fuel : Nat) (kv : List Bool) (dv : List Int) (pv pq : List (Int × Int)) r,
    dijkstraLoopFuel g w fuel kv dv pv pq = some r → dijkstraLoop g w kv dv pv pq = r := by
  intro fuel
  induction fuel with
  | zero => intro kv dv pv pq r h; simp [dijkstraLoopFuel] at h
  | succ fuel ih =>
    intro kv dv pv pq r h
    rw [dijkstraLoop]
    simp only [dijkstraLoopFuel] at h
    cases hpq : popTop pq with
    | none =>
      simp only [hpq] at h ⊢
      cases h
      rfl
    | some entrest =>
      obtain ⟨ent, rest⟩ := entrest
      simp only [hpq] at h ⊢
      cases hat : vecAt kv ent.2 with
      | error e => simp only [hat] at h ⊢; cases h; rfl
      | ok b =>
        cases b with
        | true =>
          simp only [hat] at h ⊢
          cases hrec : dijkstraLoopFuel g w fuel kv dv pv rest with
          | none => rw [hrec] at h; simp at h
          | some res =>
            rw [hrec] at h
            rw [ih _ _ _ _ _ hrec]
            cases res with
            | error e => simp at h; simp [← h]
            | ok pr => obtain ⟨pvR, tr⟩ := pr; simp at h; simp [← h]
        | false =>
          simp only [hat] at h ⊢
          cases hset : vecSet kv ent.2 true with
          | error e => simp only [hset] at h ⊢; cases h; rfl
          | ok kv2 =>
            simp only [hset] at h ⊢
            cases hlk : mapLookup g ent.2 with
            | none =>
              simp only [hlk] at h ⊢
              cases hrec : dijkstraLoopFuel g w fuel kv2 dv pv rest with
              | none => rw [hrec] at h; simp at h
              | some res =>
                rw [hrec] at h
                rw [ih _ _ _ _ _ hrec]
                cases res with
                | error e => simp at h; simp [← h]
                | ok pr => obtain ⟨pvR, tr⟩ := pr; simp at h; simp [← h]
            | some vx =>
              simp only [hlk] at h ⊢
              cases hrel : relaxEdges w ent.2 vx.edges dv pv rest with
              | error e => simp only [hrel] at h ⊢; cases h; rfl
              | ok dpp =>
                obtain ⟨dv2, pv2, pq2⟩ := dpp
                simp only [hrel] at h ⊢
                cases hrec : dijkstraLoopFuel g w fuel kv2 dv2 pv2 pq2 with
                | none => rw [hrec] at h; simp at h
                | some res =>
                  rw [hrec] at h
                  rw [ih _ _ _ _ _ hrec]
                  cases res with
                  | error e => simp at h; simp [← h]
                  | ok pr => obtain ⟨pvR, tr⟩ := pr; simp at h; simp [← h]

/-- The `std::map` representation invariant: keys strictly increasing. -/
def WfMap (g : Digraph V E) : Prop := (keysOf g).Sorted (· < ·)

/-- The structural invariants of the graph: well-formed map, every stored
edge's source equals the key it is stored under and its destination is a
present vertex, and no two edges under one source share a destination. -/
def WfG (g : Digraph V E) : Prop :=
  WfMap g ∧ ∀ p ∈ g,
    (∀ e ∈ p.2.edges, e.fromVertex = p.1 ∧ e.toVertex ∈ keysOf g) ∧
    (p.2.edges.map (fun e => e.toVertex)).Nodup

/-- Five vertices, all keys within range of the `dv`/`kv` vectors.  The unique
cheapest route to 4 is 1 → 3 → 2 → 4 (weight 3); the route 1 → 5 → 4 costs 5
and the direct relaxation through the early-settled 2 costs 11.  Payload = weight. -/
def gBadTree : Digraph Nat Nat :=
  [(1, ⟨0, [⟨1, 2, 10⟩, ⟨1, 3, 1⟩, ⟨1, 5, 1⟩]⟩),
   (2, ⟨0, [⟨2, 4, 1⟩]⟩),
   (3, ⟨0, [⟨3, 2, 1⟩]⟩),
   (4, ⟨0, []⟩),
   (5, ⟨0, [⟨5, 4, 4⟩]⟩)]

/-- Three vertices: 1 → 2 with weight 10, 1 → 3 with weight 1. -/
def gPopOrder : Digraph Nat Nat :=
  [(1, ⟨0, [⟨1, 2, 10⟩, ⟨1, 3, 1⟩]⟩), (2, ⟨0, []⟩), (3, ⟨0, []⟩)]

/-- A single vertex whose key (5) exceeds `vertexCount() = 1`. -/
def gSingle5 : Digraph Nat Nat := [(5, ⟨0, []⟩)]

/-- Keys 0 and 7 with an edge 0 → 7: key 7 exceeds `vertexCount() = 2`. -/
def gSparse07 : Digraph Nat Nat := [(0, ⟨0, [⟨0, 7, 1⟩]⟩), (7, ⟨0, []⟩)]

theorem gBadTree_run : findShortestPaths gBadTree 1 id =
    .ok [(1, 1), (2, 3), (3, 1), (4, 5), (5, 1)] := by
  have hsetup : dijkstraSetup gBadTree 1 = .ok
      ([false, false, false, false, false, false],
       [2147000000, 0, 2147000000, 2147000000, 2147000000, 2147000000],
       [(1, 1), (2, -1), (3, -1), (4, -1), (5, -1)],
       [(0, 1)]) := by rfl
  have hraw : dijkstraLoopFuel gBadTree id 20
      [false, false, false, false, false, false]
      [2147000000, 0, 2147000000, 2147000000, 2147000000, 2147000000]
      [(1, 1), (2, -1), (3, -1), (4, -1), (5, -1)]
      [(0, 1)] = some (.ok ([(1, 1), (2, 3), (3, 1), (4, 5), (5, 1)],
        [((0, 1), []), ((10, 2), [(1, 3), (1, 5)]), ((1, 3), [(1, 5), (11, 4)]),
         ((2, 2), [(1, 5), (11, 4)]), ((11, 4), [(1, 5)]), ((1, 5), []),
         ((5, 4), [])])) := by rfl
  have hfuel := dijkstraLoop_eq_of_fuel gBadTree id 20 _ _ _ _ _ hraw
  simp only [findShortestPaths, hsetup, hfuel]
  rfl

theorem gBadTree_walk3 : WalkW gBadTree id 1 4 3 := by
  have e13 : edgeW gBadTree id 1 3 1 := by
    refine ⟨⟨0, [⟨1, 2, 10⟩, ⟨1, 3, 1⟩, ⟨1, 5, 1⟩]⟩, rfl, ⟨1, 3, 1⟩, ?_, rfl, rfl⟩
    simp
  have e32 : edgeW gBadTree id 3 2 1 := by
    refine ⟨⟨0, [⟨3, 2, 1⟩]⟩, rfl, ⟨3, 2, 1⟩, ?_, rfl, rfl⟩
    simp
  have e24 : edgeW gBadTree id 2 4 1 := by
    refine ⟨⟨0, [⟨2, 4, 1⟩]⟩, rfl, ⟨2, 4, 1⟩, ?_, rfl, rfl⟩
    simp
  exact WalkW.tail (WalkW.tail (WalkW.tail (WalkW.refl 1) e13) e32) e24

/--
**C1.**  The claim states that `findShortestPaths(start, weightFn)` returns, for
every reachable vertex, a predecessor lying on a minimum-total-weight path.  The
code violates this: the priority-queue comparator orders entries by `.second`,
which holds the vertex number, not the distance, so vertex 2 of `gBadTree` is
settled with the stale distance 10 before its true distance 2 is found; its
outgoing edge is never re-relaxed and vertex 4 ends with predecessor 5, although
a walk of weight 3 reaches 4 while any walk whose last edge is 5 → 4 costs at
least the edge weight 4.
-/
theorem findShortestPaths_not_shortest_tree :
    findShortestPaths gBadTree 1 id = .ok [(1, 1), (2, 3), (3, 1), (4, 5), (5, 1)] ∧
    WalkW gBadTree id 1 4 3 ∧
    ¬ ValidSPPred gBadTree id 1 4 5 := by
  refine ⟨gBadTree_run, gBadTree_walk3, ?_⟩
  rintro ⟨n, m, _, hedge, hmin⟩
  obtain ⟨vx, hvx, e, he, _, hw⟩ := hedge
  have hvx4 : vx = ⟨0, [⟨5, 4, 4⟩]⟩ := by
    have hlk : mapLookup gBadTree 5 = some ⟨0, [⟨5, 4, 4⟩]⟩ := by rfl
    rw [hlk] at hvx
    exact (Option.some.inj hvx).symm
  subst hvx4
  simp only [List.mem_singleton] at he
  subst he
  have hm : m = 4 := by simpa using hw.symm
  have h3 := hmin 3 gBadTree_walk3
  omega

/--
**C2.**  The claim states that the main loop always pops a queued entry of
minimum distance.  In the run on `gPopOrder`, the second iteration pops the
entry `(10, 2)` while `(1, 3)` is still queued: the comparator orders by vertex
number (the pair's `.second`), not by distance.
-/
theorem findShortestPaths_pop_not_min :
    findShortestPathsTrace gPopOrder 1 id =
      .ok [((0, 1), []), ((10, 2), [(1, 3)]), ((1, 3), [])] ∧
    ¬ (∀ ev ∈ [((0, 1), ([] : List (Int × Int))), ((10, 2), [(1, 3)]),
        ((1, 3), [])], ∀ q ∈ ev.2, ev.1.1 ≤ q.1) := by
  constructor
  · have hsetup : dijkstraSetup gPopOrder 1 = .ok
        ([false, false, false, false],
         [2147000000, 0, 2147000000, 2147000000],
         [(1, 1), (2, -1), (3, -1)],
         [(0, 1)]) := by rfl
    have hraw : dijkstraLoopFuel gPopOrder id 20
        [false, false, false, false]
        [2147000000, 0, 2147000000, 2147000000]
        [(1, 1), (2, -1), (3, -1)]
        [(0, 1)] = some (.ok ([(1, 1), (2, 1), (3, 1)],
          [((0, 1), []), ((10, 2), [(1, 3)]), ((1, 3), [])])) := by rfl
    have hfuel := dijkstraLoop_eq_of_fuel gPopOrder id 20 _ _ _ _ _ hraw
    simp only [findShortestPathsTrace, hsetup, hfuel]
  · decide

/--
**C3.**  The claim states that `findShortestPaths` fails (with the
vertex-not-found error) exactly when `start` is absent, and succeeds whenever
`start` is present, for every choice of vertex keys including non-contiguous
ones.  The code violates this: `dv` and `kv` are `std::vector`s of size
`vertexCount() + 1` indexed by the raw key, so on the one-vertex graph with key
5 the call `dv.at(5)` throws `std::out_of_range` although the start vertex is
present.
-/
theorem findShortestPaths_out_of_range_start_present :
    mapContains gSingle5 5 = true ∧
    findShortestPaths gSingle5 5 id = .error .outOfRange := by
  constructor
  · rfl
  · rfl

/--
**C4.**  The claim states that for every graph and every start vertex present in
it the returned map has exactly the graph's keys and self-maps `start` and the
unreachable vertices.  The code violates this: on the graph with keys 0 and 7
and edge 0 → 7, relaxing that edge evaluates `dv.at(7)` on a vector of size 3
and throws `std::out_of_range`, so no map is returned at all.
-/
theorem findShortestPaths_no_map_returned :
    mapContains gSparse07 0 = true ∧
    findShortestPaths gSparse07 0 id = .error .outOfRange := by
  constructor
  · rfl
  · have hsetup : dijkstraSetup gSparse07 0 = .ok
        ([false, false, false],
         [0, 2147000000, 2147000000],
         [(0, 0), (7, -1)],
         [(0, 0)]) := by rfl
    have hraw : dijkstraLoopFuel gSparse07 id 5
        [false, false, false]
        [0, 2147000000, 2147000000]
        [(0, 0), (7, -1)]
        [(0, 0)] = some (.error .outOfRange) := by rfl
    have hfuel := dijkstraLoop_eq_of_fuel gSparse07 id 5 _ _ _ _ _ hraw
    simp only [findShortestPaths, hsetup, hfuel]

theorem mapContains_iff (g : Digraph V E) (k : Int) :
    mapContains g k = true ↔ k ∈ keysOf g := by
  simp [mapContains, keysOf]

theorem mapLookup_of_mem {g : Digraph V E} (hwf : WfMap g) {p : Int × DigraphVertex V E}
    (hp : p ∈ g) : mapLookup g p.1 = some p.2 := by
  induction g with
  | nil => simp at hp
  | cons q g' ih =>
    rcases List.mem_cons.mp hp with rfl | hp'
    · simp [mapLookup, List.find?]
    · have hlt : q.1 < p.1 := by
        have := (List.sorted_cons.mp hwf).1 p.1
        exact this (List.mem_map_of_mem Prod.fst hp')
      have hne : (q.1 == p.1) = false := by
        simp
        omega
      simp only [mapLookup, List.find?, hne]
      exact ih (List.sorted_cons.mp hwf).2 hp'

/--
**C7.**  Every mutating operation that fails leaves the graph exactly in its
prior state; `addVertex` on a present key and `addEdge` on an ordered pair that
already has an edge always fail.
-/
theorem mutators_fail_atomic (g : Digraph V E) (k a b : Int) (vi : V) (ei : E) :
    ((addVertex g k vi).2 ≠ none → (addVertex g k vi).1 = g) ∧
    ((addEdge g a b ei).2 ≠ none → (addEdge g a b ei).1 = g) ∧
    ((removeVertex g k).2 ≠ none → (removeVertex g k).1 = g) ∧
    ((removeEdge g a b).2 ≠ none → (removeEdge g a b).1 = g) ∧
    (mapContains g k = true → (addVertex g k vi).2 ≠ none) ∧
    (WfG g → (a, b) ∈ edgesAll g → (addEdge g a b ei).2 ≠ none) := by
  refine ⟨?_, ?_, ?_, ?_, ?_, ?_⟩
  · by_cases h : mapContains g k <;> intro h2 <;> simp [addVertex, h] at h2 ⊢
  · intro h2
    unfold addEdge at h2 ⊢
    by_cases hc : (!mapContains g a || !mapContains g b) = true
    · simp [hc]
    · simp only [hc] at h2 ⊢
      simp only [Bool.false_eq_true, if_false] at h2 ⊢
      cases hlk : mapLookup g a with
      | none => simp [hlk]
      | some vx =>
        simp only [hlk] at h2 ⊢
        by_cases hany : vx.edges.any (fun e => e.toVertex == b) = true
        · simp [hany]
        · simp only [Bool.not_eq_true] at hany
          simp [hany] at h2
  · by_cases h : mapContains g k <;> intro h2 <;> simp [removeVertex, h] at h2 ⊢
  · intro h2
    unfold removeEdge at h2 ⊢
    by_cases hc : (!mapContains g a || !mapContains g b) = true
    · simp [hc]
    · simp only [hc] at h2 ⊢
      simp only [Bool.false_eq_true, if_false] at h2 ⊢
      by_cases hany : (g.map (fun p =>
          if p.1 = a then
            ((p.1, DigraphVertex.mk p.2.vinfo (eraseLoop b p.2.edges).1),
              (eraseLoop b p.2.edges).2)
          else ((p.1, p.2), false))).any Prod.snd = true
      · rw [if_pos hany] at h2
        exact absurd rfl h2
      · rw [if_neg hany]
        rw [Bool.not_eq_true, List.any_eq_false] at hany
        have hmapeq : ∀ p ∈ g, (if p.1 = a then
            ((p.1, DigraphVertex.mk p.2.vinfo (eraseLoop b p.2.edges).1),
              (eraseLoop b p.2.edges).2)
          else ((p.1, p.2), false)).1 = p := by
          intro p hp
          obtain ⟨p1, vi2, es2⟩ := p
          by_cases hpa : p1 = a
          · have hflag := hany _ (List.mem_map_of_mem _ hp)
            subst hpa
            simp only [if_pos rfl] at hflag ⊢
            simp only [Bool.not_eq_true] at hflag
            have heq := eraseLoop_not_erased (v := b) es2 hflag
            simp [heq]
          · simp [hpa]
        calc (List.map (fun p => if p.1 = a then
              ((p.1, DigraphVertex.mk p.2.vinfo (eraseLoop b p.2.edges).1),
                (eraseLoop b p.2.edges).2)
            else ((p.1, p.2), false)) g).map Prod.fst
            = g.map (fun p => (if p.1 = a then
              ((p.1, DigraphVertex.mk p.2.vinfo (eraseLoop b p.2.edges).1),
                (eraseLoop b p.2.edges).2)
            else ((p.1, p.2), false)).1) := by rw [List.map_map]; rfl
          _ = g.map id := List.map_congr_left (fun p hp => by
                rw [Function.id_def]
                exact hmapeq p hp)
          _ = g := List.map_id g
  · intro hk
    simp [addVertex, hk]
  · rintro ⟨hwf, hedges⟩ hmem
    simp only [edgesAll, List.mem_flatten] at hmem
    obtain ⟨l, hl, hab⟩ := hmem
    rw [List.mem_map] at hl
    obtain ⟨p, hp, rfl⟩ := hl
    rw [List.mem_map] at hab
    obtain ⟨e, he, habe⟩ := hab
    have hfrom : e.fromVertex = p.1 := ((hedges p hp).1 e he).1
    have hto : e.toVertex ∈ keysOf g := ((hedges p hp).1 e he).2
    have ha : p.1 = a := by
      have := congrArg Prod.fst habe
      simp at this
      omega
    have hb : e.toVertex = b := by
      have := congrArg Prod.snd habe
      simpa using this
    have hca : mapContains g a = true := by
      rw [mapContains_iff]
      rw [← ha]
      exact List.mem_map_of_mem Prod.fst hp
    have hcb : mapContains g b = true := by
      rw [mapContains_iff, ← hb]
      exact hto
    have hlk : mapLookup g a = some p.2 := by
      rw [← ha]
      exact mapLookup_of_mem hwf hp
    have hany : p.2.edges.any (fun e => e.toVertex == b) = true := by
      rw [List.any_eq_true]
      exact ⟨e, he, by simp [hb]⟩
    simp [addEdge, hca, hcb, hlk, hany]

/-- The concrete pair of graphs refuting the move-assignment half of the claim:
after `a = std::move(b)` the source `b` holds `a`'s former contents. -/
def gMoveDst : Digraph Nat Nat := [(1, ⟨0, []⟩)]

/-- Source graph for the move-assignment counterexample. -/
def gMoveSrc : Digraph Nat Nat := [(2, ⟨0, []⟩)]

/--
**C9 (counterexample).**  The claim that every move transfer leaves the source
empty is false for move assignment: with destination `{1}` and source `{2}`,
the swap leaves the source holding `{1}`.
-/
theorem moveAssign_source_not_empty :
    ¬ ((moveAssign gMoveDst gMoveSrc).2 = ([] : Digraph Nat Nat)) := by
  decide

/--
**C9 (amended).**  Move construction leaves the source empty; move assignment
(between distinct objects) leaves the source valid but holding the
destination's previous contents, so it is empty only if the destination was.
-/
theorem move_transfer_source_state (s d : Digraph V E) :
    (moveConstruct s).2 = ([] : Digraph V E) ∧ (moveAssign d s).2 = d :=
  ⟨rfl, rfl⟩

theorem mem_edgesAll {g : Digraph V E} {p : Int × DigraphVertex V E} {e : DigraphEdge E}
    (hp : p ∈ g) (he : e ∈ p.2.edges) : (e.fromVertex, e.toVertex) ∈ edgesAll g := by
  simp only [edgesAll, List.mem_flatten]
  exact ⟨p.2.edges.map (fun e => (e.fromVertex, e.toVertex)),
    List.mem_map_of_mem _ hp, List.mem_map_of_mem _ he⟩

theorem keysOf_map_keep (g : Digraph V E)
    (f : Int × DigraphVertex V E → Int × DigraphVertex V E)
    (hf : ∀ p, (f p).1 = p.1) : keysOf (g.map f) = keysOf g := by
  simp only [keysOf, List.map_map]
  exact List.map_congr_left (fun p _ => hf p)

theorem filter_key_single {g : Digraph V E} (hwf : WfMap g) {v : Int}
    {vx : DigraphVertex V E} (hm : (v, vx) ∈ g) :
    g.filter (fun p => p.1 == v) = [(v, vx)] := by
  induction g with
  | nil => simp at hm
  | cons q g' ih =>
    rcases List.mem_cons.mp hm with rfl | hm'
    · have hnone : g'.filter (fun p => p.1 == v) = [] := by
        rw [List.filter_eq_nil_iff]
        intro p hp
        have hlt := (List.sorted_cons.mp hwf).1 p.1 (List.mem_map_of_mem Prod.fst hp)
        simp only [beq_iff_eq]
        omega
      simp [List.filter_cons, hnone]
    · have hlt : q.1 < v := by
        have := (List.sorted_cons.mp hwf).1 v
          (List.mem_map_of_mem Prod.fst hm')
        exact this
      have hne : (q.1 == v) = false := by simp; omega
      simp only [List.filter_cons, hne]
      simp only [Bool.false_eq_true, if_false]
      exact ih (List.sorted_cons.mp hwf).2 hm'

theorem sum_map_bump {v : Int} : ∀ g : Digraph V E, (keysOf g).Nodup → v ∈ keysOf g →
    ∀ c : Nat,
    (g.map (fun p => if p.1 = v then p.2.edges.length + c else p.2.edges.length)).sum =
      (g.map (fun p => p.2.edges.length)).sum + c := by
  intro g
  induction g with
  | nil => intro _ hv; simp [keysOf] at hv
  | cons q g' ih =>
    intro hnd hv c
    simp only [keysOf, List.map_cons, List.nodup_cons] at hnd
    rcases List.mem_cons.mp hv with hq | hv'
    · have hrest : ∀ p ∈ g', ¬ p.1 = v := by
        intro p hp hpv
        apply hnd.1
        rw [← hq, ← hpv]
        exact List.mem_map_of_mem Prod.fst hp
      have hmap : g'.map (fun p =>
          if p.1 = v then p.2.edges.length + c else p.2.edges.length) =
          g'.map (fun p => p.2.edges.length) :=
        List.map_congr_left (fun p hp => by simp [hrest p hp])
      simp [List.map_cons, hmap, hq.symm]
      omega
    · have hq : ¬ q.1 = v := by
        intro hqv
        exact hnd.1 (hqv ▸ hv')
      have := ih hnd.2 hv' c
      simp only [keysOf] at this
      simp [List.map_cons, hq, this]
      omega
end DG

namespace DG
variable {V E : Type}

/--
**C10.**  Self-loops are permitted: for a present vertex `v` with no existing
edge `v → v`, `addEdge(v, v, payload)` succeeds; afterwards `(v, v)` appears in
`edges()` and in `edges(v)`, `edgeCount()` and `edgeCount(v)` each grow by one,
and `edgeInfo(v, v)` returns the payload.
-/
theorem addEdge_self_loop (g : Digraph V E) (v : Int) (ei : E)
    (hwf : WfG g) (hv : v ∈ keysOf g) (hno : (v, v) ∉ edgesAll g) :
    (addEdge g v v ei).2 = none ∧
    (v, v) ∈ edgesAll (addEdge g v v ei).1 ∧
    (∃ l, edgesFrom (addEdge g v v ei).1 v = .ok l ∧ (v, v) ∈ l) ∧
    edgeCount (addEdge g v v ei).1 = edgeCount g + 1 ∧
    (∃ n, edgeCountV g v = .ok n ∧ edgeCountV (addEdge g v v ei).1 v = .ok (n + 1)) ∧
    edgeInfo (addEdge g v v ei).1 v v = .ok ei := by
  obtain ⟨p, hp, hp1⟩ := List.mem_map.mp hv
  obtain ⟨v0, vx⟩ := p
  simp only at hp1
  rw [hp1] at hp
  have hca : mapContains g v = true := (mapContains_iff g v).mpr hv
  have hlk : mapLookup g v = some vx := mapLookup_of_mem hwf.1 hp
  have hnotov : ∀ e ∈ vx.edges, e.toVertex ≠ v := by
    intro e he hev
    apply hno
    have hfrom : e.fromVertex = v := ((hwf.2 (v, vx) hp).1 e he).1
    have := mem_edgesAll hp he
    rw [hfrom, hev] at this
    exact this
  have hanyf : vx.edges.any (fun e => e.toVertex == v) = false := by
    rw [List.any_eq_false]
    intro e he
    simp [hnotov e he]
  have heq : addEdge g v v ei = (g.map (fun p =>
      if p.1 = v then (p.1, ⟨p.2.vinfo, p.2.edges ++ [⟨v, v, ei⟩]⟩) else p), none) := by
    simp [addEdge, hca, hlk, hanyf]
  set f : Int × DigraphVertex V E → Int × DigraphVertex V E := fun p =>
    if p.1 = v then (p.1, ⟨p.2.vinfo, p.2.edges ++ [⟨v, v, ei⟩]⟩) else p with hf
  have hfkeep : ∀ p, (f p).1 = p.1 := by
    intro p
    by_cases h : p.1 = v <;> simp [hf, h]
  have hkeys : keysOf (g.map f) = keysOf g := keysOf_map_keep g f hfkeep
  have hwfmap2 : WfMap (g.map f) := by
    unfold WfMap
    rw [hkeys]
    exact hwf.1
  have hmem2 : (v, DigraphVertex.mk vx.vinfo (vx.edges ++ [⟨v, v, ei⟩])) ∈ g.map f := by
    have := List.mem_map_of_mem f hp
    simpa [hf] using this
  have hca2 : mapContains (g.map f) v = true := by
    rw [mapContains_iff, hkeys]
    exact hv
  have hfil2 : (g.map f).filter (fun p => p.1 == v) =
      [(v, DigraphVertex.mk vx.vinfo (vx.edges ++ [⟨v, v, ei⟩]))] :=
    filter_key_single hwfmap2 hmem2
  have hfil1 : g.filter (fun p => p.1 == v) = [(v, vx)] := filter_key_single hwf.1 hp
  rw [heq]
  refine ⟨rfl, ?_, ?_, ?_, ?_, ?_⟩
  · have : ((⟨v, v, ei⟩ : DigraphEdge E).fromVertex,
        (⟨v, v, ei⟩ : DigraphEdge E).toVertex) ∈ edgesAll (g.map f) :=
      mem_edgesAll hmem2 (by simp)
    simpa using this
  · refine ⟨(vx.edges ++ [(⟨v, v, ei⟩ : DigraphEdge E)]).map
        (fun e => (e.fromVertex, e.toVertex)), ?_, ?_⟩
    · simp only [edgesFrom, hca2, Bool.not_true, Bool.false_eq_true, if_false, hfil2]
      simp
    · simp
  · simp only [edgeCount, List.map_map]
    have hcong : g.map (fun p => ((f p).2.edges.length)) =
        g.map (fun p => if p.1 = v then p.2.edges.length + 1 else p.2.edges.length) :=
      List.map_congr_left (fun p _ => by by_cases h : p.1 = v <;> simp [hf, h])
    have hnodup : (keysOf g).Nodup := hwf.1.nodup
    have := sum_map_bump (v := v) g hnodup hv 1
    rw [show (Function.comp (fun p => p.2.edges.length) f) =
        (fun p => (f p).2.edges.length) from rfl]
    rw [hcong, this]
  · refine ⟨vx.edges.length, ?_, ?_⟩
    · simp only [edgeCountV, hca, Bool.not_true, Bool.false_eq_true, if_false, hfil1]
      simp
    · simp only [edgeCountV, hca2, Bool.not_true, Bool.false_eq_true, if_false, hfil2]
      simp
  · have hlk2 : mapLookup (g.map f) v =
        some (DigraphVertex.mk vx.vinfo (vx.edges ++ [⟨v, v, ei⟩])) :=
      mapLookup_of_mem hwfmap2 hmem2
    simp only [edgeInfo, hca2, Bool.not_true, Bool.or_self, Bool.false_eq_true, if_false,
      hlk2]
    have hfind1 : vx.edges.find? (fun e => e.toVertex == v) = none := by
      rw [List.find?_eq_none]
      intro e he
      simp [hnotov e he]
    rw [List.find?_append, hfind1]
    simp [List.find?]

theorem mapLookup_mem_keys {g : Digraph V E} {v : Int} {vx : DigraphVertex V E}
    (h : mapLookup g v = some vx) : v ∈ keysOf g := by
  unfold mapLookup at h
  cases hf : g.find? (fun p => p.1 == v) with
  | none => rw [hf] at h; cases h
  | some p =>
    have hp := List.find?_some hf
    have hmem := List.mem_of_find?_eq_some hf
    simp only [beq_iff_eq] at hp
    rw [← hp]
    exact List.mem_map_of_mem Prod.fst hmem

theorem mem_keys_lookup {g : Digraph V E} {v : Int} (h : v ∈ keysOf g) :
    ∃ vx, mapLookup g v = some vx := by
  unfold mapLookup
  cases hf : g.find? (fun p => p.1 == v) with
  | some p => exact ⟨p.2, rfl⟩
  | none =>
    rw [List.find?_eq_none] at hf
    obtain ⟨p, hp, hp1⟩ := List.mem_map.mp h
    exact absurd (by simp [hp1]) (hf p hp)

theorem dfsFuel_append (g : Digraph V E) : ∀ (f : Nat) (v : Int) (t : List Int),
    ∃ ex, dfsFuel g f v t = t ++ ex := by
  intro f
  induction f with
  | zero => intro v t; exact ⟨[], by simp [dfsFuel]⟩
  | succ f ih =>
    intro v t
    cases hlk : mapLookup g v with
    | none => exact ⟨[], by simp [dfsFuel, hlk]⟩
    | some vx =>
      by_cases hmem : v ∈ t
      · exact ⟨[], by simp [dfsFuel, hlk, hmem]⟩
      · have hfold : ∀ (es : List (DigraphEdge E)) (acc : List Int),
            ∃ ex, es.foldl (fun tr e => dfsFuel g f e.toVertex tr) acc = acc ++ ex := by
          intro es
          induction es with
          | nil => intro acc; exact ⟨[], by simp⟩
          | cons e es ihe =>
            intro acc
            obtain ⟨ex1, h1⟩ := ih e.toVertex acc
            obtain ⟨ex2, h2⟩ := ihe (acc ++ ex1)
            refine ⟨ex1 ++ ex2, ?_⟩
            rw [List.foldl_cons, h1, h2, List.append_assoc]
        obtain ⟨ex, hex⟩ := hfold vx.edges (t ++ [v])
        refine ⟨[v] ++ ex, ?_⟩
        simp only [dfsFuel, hlk, if_neg hmem]
        rw [hex, List.append_assoc]

theorem subset_dfsFuel (g : Digraph V E) (f : Nat) (v : Int) (t : List Int) :
    t ⊆ dfsFuel g f v t := by
  obtain ⟨ex, hex⟩ := dfsFuel_append g f v t
  rw [hex]
  exact List.subset_append_left t ex

theorem dfsFuel_sound (g : Digraph V E) : ∀ (f : Nat) (v : Int) (t : List Int),
    ∀ x ∈ dfsFuel g f v t, x ∈ t ∨ (x ∈ keysOf g ∧ Reach g v x) := by
  intro f
  induction f with
  | zero => intro v t x hx; exact Or.inl (by simpa [dfsFuel] using hx)
  | succ f ih =>
    intro v t x hx
    cases hlk : mapLookup g v with
    | none =>
      simp only [dfsFuel, hlk] at hx
      exact Or.inl hx
    | some vx =>
      by_cases hmem : v ∈ t
      · simp only [dfsFuel, hlk, if_pos hmem] at hx
        exact Or.inl hx
      · simp only [dfsFuel, hlk, if_neg hmem] at hx
        have hfold : ∀ (es : List (DigraphEdge E)) (acc : List Int),
            (∀ e ∈ es, stepRel g v e.toVertex) →
            (∀ y ∈ acc, y ∈ t ∨ (y ∈ keysOf g ∧ Reach g v y)) →
            ∀ y ∈ es.foldl (fun tr e => dfsFuel g f e.toVertex tr) acc,
              y ∈ t ∨ (y ∈ keysOf g ∧ Reach g v y) := by
          intro es
          induction es with
          | nil => intro acc _ hacc y hy; exact hacc y hy
          | cons e es ihe =>
            intro acc hstep hacc y hy
            rw [List.foldl_cons] at hy
            refine ihe _ (fun e2 he2 => hstep e2 (List.mem_cons_of_mem e he2)) ?_ y hy
            intro z hz
            rcases ih e.toVertex acc z hz with hz1 | ⟨hzk, hzr⟩
            · exact hacc z hz1
            · refine Or.inr ⟨hzk, ?_⟩
              exact Relation.ReflTransGen.trans
                (Relation.ReflTransGen.single (hstep e (by simp))) hzr
        refine hfold vx.edges (t ++ [v]) ?_ ?_ x hx
        · intro e he
          exact ⟨vx, hlk, e, he, rfl⟩
        · intro y hy
          rcases List.mem_append.mp hy with hy1 | hy2
          · exact Or.inl hy1
          · rw [List.mem_singleton] at hy2
            subst hy2
            exact Or.inr ⟨mapLookup_mem_keys hlk, Relation.ReflTransGen.refl⟩

theorem dfsFuel_nodup (g : Digraph V E) : ∀ (f : Nat) (v : Int) (t : List Int),
    t.Nodup → (dfsFuel g f v t).Nodup := by
  intro f
  induction f with
  | zero => intro v t h; simpa [dfsFuel] using h
  | succ f ih =>
    intro v t h
    cases hlk : mapLookup g v with
    | none => simpa [dfsFuel, hlk] using h
    | some vx =>
      by_cases hmem : v ∈ t
      · simpa [dfsFuel, hlk, hmem] using h
      · simp only [dfsFuel, hlk, if_neg hmem]
        have hfold : ∀ (es : List (DigraphEdge E)) (acc : List Int),
            acc.Nodup → (es.foldl (fun tr e => dfsFuel g f e.toVertex tr) acc).Nodup := by
          intro es
          induction es with
          | nil => intro acc hacc; simpa using hacc
          | cons e es ihe =>
            intro acc hacc
            rw [List.foldl_cons]
            exact ihe _ (ih e.toVertex acc hacc)
        refine hfold vx.edges (t ++ [v]) ?_
        simp [List.nodup_append, h, hmem]

theorem mem_dfsFuel_self (g : Digraph V E) (f : Nat) (v : Int) (t : List Int)
    (hv : v ∈ keysOf g) : v ∈ dfsFuel g (f + 1) v t := by
  obtain ⟨vx, hlk⟩ := mem_keys_lookup hv
  by_cases hmem : v ∈ t
  · exact subset_dfsFuel g (f + 1) v t hmem
  · simp only [dfsFuel, hlk, if_neg hmem]
    have hfold : ∀ (es : List (DigraphEdge E)) (acc : List Int),
        ∃ ex, es.foldl (fun tr e => dfsFuel g f e.toVertex tr) acc = acc ++ ex := by
      intro es
      induction es with
      | nil => intro acc; exact ⟨[], by simp⟩
      | cons e es ihe =>
        intro acc
        obtain ⟨ex1, h1⟩ := dfsFuel_append g f e.toVertex acc
        obtain ⟨ex2, h2⟩ := ihe (acc ++ ex1)
        refine ⟨ex1 ++ ex2, ?_⟩
        rw [List.foldl_cons, h1, h2, List.append_assoc]
    obtain ⟨ex, hex⟩ := hfold vx.edges (t ++ [v])
    rw [hex]
    simp
end DG

namespace DG
variable {V E : Type}

theorem unvisited_le_length (g : Digraph V E) (t : List Int) :
    unvisited g t ≤ g.length := by
  unfold unvisited
  calc ((keysOf g).filter (fun k => decide (k ∉ t))).length
      ≤ (keysOf g).length := List.length_filter_le _ _
    _ = g.length := by simp [keysOf]

theorem unvisited_anti (g : Digraph V E) {t t' : List Int} (h : t ⊆ t') :
    unvisited g t' ≤ unvisited g t := by
  unfold unvisited
  rw [← List.countP_eq_length_filter, ← List.countP_eq_length_filter]
  apply List.countP_mono_left
  intro k _ hk
  simp only [decide_eq_true_eq] at hk ⊢
  exact fun hc => hk (h hc)

theorem unvisited_pos (g : Digraph V E) {v : Int} {t : List Int}
    (hv : v ∈ keysOf g) (hnm : v ∉ t) : 0 < unvisited g t := by
  unfold unvisited
  have hmem : v ∈ (keysOf g).filter (fun k => decide (k ∉ t)) := by
    rw [List.mem_filter]
    exact ⟨hv, by simpa using hnm⟩
  exact List.length_pos.mpr (List.ne_nil_of_mem hmem)

theorem unvisited_push_lt (g : Digraph V E) {v : Int} {t : List Int}
    (hv : v ∈ keysOf g) (hnm : v ∉ t) :
    unvisited g (t ++ [v]) < unvisited g t := by
  unfold unvisited
  rw [← List.countP_eq_length_filter, ← List.countP_eq_length_filter]
  have hgen : ∀ l : List Int, v ∈ l →
      l.countP (fun k => decide (k ∉ t ++ [v])) < l.countP (fun k => decide (k ∉ t)) := by
    intro l
    induction l with
    | nil => intro h; simp at h
    | cons a l ihl =>
      intro hmem
      rw [List.countP_cons, List.countP_cons]
      have hle : l.countP (fun k => decide (k ∉ t ++ [v])) ≤
          l.countP (fun k => decide (k ∉ t)) := by
        apply List.countP_mono_left
        intro k _ hk
        simp only [decide_eq_true_eq, List.mem_append] at hk ⊢
        exact fun hc => hk (Or.inl hc)
      by_cases hav : a = v
      · subst hav
        have h1 : decide (a ∉ t ++ [a]) = false := by simp
        have h2 : decide (a ∉ t) = true := by simpa using hnm
        rw [h1, h2, if_neg (by simp), if_pos rfl]
        omega
      · have hmem2 : v ∈ l := by
          rcases List.mem_cons.mp hmem with h | h
          · exact absurd h.symm hav
          · exact h
        have hstrict := ihl hmem2
        have hple : decide (a ∉ t ++ [v]) = true → decide (a ∉ t) = true := by
          intro hk
          simp only [decide_eq_true_eq, List.mem_append] at hk ⊢
          exact fun hc => hk (Or.inl hc)
        by_cases hc : decide (a ∉ t ++ [v]) = true
        · rw [hc, hple hc]
          simp only [if_pos rfl]
          omega
        · rw [Bool.not_eq_true] at hc
          rw [hc, if_neg (by simp)]
          have hsplit : (if decide (a ∉ t) = true then 1 else 0) = 0 ∨
              (if decide (a ∉ t) = true then 1 else 0) = 1 := by
            cases decide (a ∉ t) <;> simp
          rcases hsplit with h0 | h0 <;> rw [h0] <;> omega
  exact hgen (keysOf g) hv

theorem dfsFuel_stable_aux (g : Digraph V E) : ∀ (n f1 f2 : Nat) (v : Int) (t : List Int),
    unvisited g t ≤ n → n < f1 → n < f2 → dfsFuel g f1 v t = dfsFuel g f2 v t := by
  intro n
  induction n with
  | zero =>
    intro f1 f2 v t hu h1 h2
    obtain ⟨f1, rfl⟩ : ∃ k, f1 = k + 1 := ⟨f1 - 1, by omega⟩
    obtain ⟨f2, rfl⟩ : ∃ k, f2 = k + 1 := ⟨f2 - 1, by omega⟩
    cases hlk : mapLookup g v with
    | none => simp [dfsFuel, hlk]
    | some vx =>
      by_cases hmem : v ∈ t
      · simp [dfsFuel, hlk, hmem]
      · exact absurd (unvisited_pos g (mapLookup_mem_keys hlk) hmem) (by omega)
  | succ n ih =>
    intro f1 f2 v t hu h1 h2
    obtain ⟨f1, rfl⟩ : ∃ k, f1 = k + 1 := ⟨f1 - 1, by omega⟩
    obtain ⟨f2, rfl⟩ : ∃ k, f2 = k + 1 := ⟨f2 - 1, by omega⟩
    cases hlk : mapLookup g v with
    | none => simp [dfsFuel, hlk]
    | some vx =>
      by_cases hmem : v ∈ t
      · simp [dfsFuel, hlk, hmem]
      · simp only [dfsFuel, hlk, if_neg hmem]
        have hv := mapLookup_mem_keys hlk
        have hpush := unvisited_push_lt g hv hmem
        have hfold : ∀ (es : List (DigraphEdge E)) (acc : List Int),
            unvisited g acc ≤ n →
            es.foldl (fun tr e => dfsFuel g f1 e.toVertex tr) acc =
            es.foldl (fun tr e => dfsFuel g f2 e.toVertex tr) acc := by
          intro es
          induction es with
          | nil => intro acc _; rfl
          | cons e es ihe =>
            intro acc hacc
            rw [List.foldl_cons, List.foldl_cons]
            rw [ih f1 f2 e.toVertex acc hacc (by omega) (by omega)]
            refine ihe _ ?_
            obtain ⟨ex, hex⟩ := dfsFuel_append g f2 e.toVertex acc
            rw [hex]
            exact le_trans (unvisited_anti g (List.subset_append_left acc ex)) hacc
        exact hfold vx.edges (t ++ [v]) (by omega)
end DG

namespace DG
variable {V E : Type}

/--
**C8.**  The reachability traversal used by `isStronglyConnected` terminates on
every graph, cyclic ones included: fuel `g.length + 1` (the fuel `depthFirst`
uses) already yields the stable result and every larger fuel returns the same
list, and a call on a vertex already recorded in the tracker leaves the tracker
unchanged (a visited vertex is never expanded again).
-/
theorem depthFirst_terminates (g : Digraph V E) (v : Int) (t : List Int) (f : Nat)
    (hf : g.length + 1 ≤ f) :
    dfsFuel g f v t = depthFirst g v t ∧ (v ∈ t → dfsFuel g f v t = t) := by
  constructor
  · unfold depthFirst
    exact dfsFuel_stable_aux g g.length f (g.length + 1) v t (unvisited_le_length g t)
      (by omega) (by omega)
  · intro hmem
    obtain ⟨f2, rfl⟩ : ∃ k, f = k + 1 := ⟨f - 1, by omega⟩
    cases hlk : mapLookup g v with
    | none => simp [dfsFuel, hlk]
    | some vx => simp [dfsFuel, hlk, hmem]

/-- A two-vertex cycle: 1 → 2 → 1. -/
def gCyc : Digraph Nat Nat := [(1, ⟨0, [⟨1, 2, 0⟩]⟩), (2, ⟨0, [⟨2, 1, 0⟩]⟩)]

theorem depthFirst_terminates_witness :
    gCyc.length + 1 ≤ 10 ∧
    (dfsFuel gCyc 10 2 [2] = depthFirst gCyc 2 [2] ∧
      ((2 : Int) ∈ [(2 : Int)] → dfsFuel gCyc 10 2 [2] = [2])) :=
  ⟨by decide, depthFirst_terminates gCyc 2 [2] 10 (by decide)⟩

theorem dfsFuel_closed (g : Digraph V E) : ∀ (n f : Nat) (v : Int) (t : List Int),
    unvisited g t ≤ n → n < f →
    ∀ x ∈ dfsFuel g f v t, x ∉ t →
    ∀ y, stepRel g x y → y ∈ keysOf g → y ∈ dfsFuel g f v t := by
  intro n
  induction n with
  | zero =>
    intro f v t hu hf x hx hxt y hstep hy
    obtain ⟨f2, rfl⟩ : ∃ k, f = k + 1 := ⟨f - 1, by omega⟩
    cases hlk : mapLookup g v with
    | none => simp only [dfsFuel, hlk] at hx; exact absurd hx hxt
    | some vx =>
      by_cases hmem : v ∈ t
      · simp only [dfsFuel, hlk, if_pos hmem] at hx; exact absurd hx hxt
      · exact absurd (unvisited_pos g (mapLookup_mem_keys hlk) hmem) (by omega)
  | succ n ih =>
    intro f v t hu hf x hx hxt y hstep hy
    obtain ⟨f2, rfl⟩ : ∃ k, f = k + 1 := ⟨f - 1, by omega⟩
    cases hlk : mapLookup g v with
    | none => simp only [dfsFuel, hlk] at hx; exact absurd hx hxt
    | some vx =>
      by_cases hmem : v ∈ t
      · simp only [dfsFuel, hlk, if_pos hmem] at hx; exact absurd hx hxt
      · simp only [dfsFuel, hlk, if_neg hmem] at hx ⊢
        have hv := mapLookup_mem_keys hlk
        have hpush := unvisited_push_lt g hv hmem
        have hfold : ∀ (es : List (DigraphEdge E)) (acc : List Int),
            unvisited g acc ≤ n →
            (∀ x2 ∈ acc, x2 ∉ t ++ [v] → ∀ y2, stepRel g x2 y2 → y2 ∈ keysOf g →
              y2 ∈ acc) →
            (∀ x2 ∈ es.foldl (fun tr e => dfsFuel g f2 e.toVertex tr) acc,
              x2 ∉ t ++ [v] → ∀ y2, stepRel g x2 y2 → y2 ∈ keysOf g →
              y2 ∈ es.foldl (fun tr e => dfsFuel g f2 e.toVertex tr) acc) ∧
            (∀ e ∈ es, e.toVertex ∈ keysOf g →
              e.toVertex ∈ es.foldl (fun tr e => dfsFuel g f2 e.toVertex tr) acc) ∧
            acc ⊆ es.foldl (fun tr e => dfsFuel g f2 e.toVertex tr) acc := by
          intro es
          induction es with
          | nil =>
            intro acc hun hclosed
            exact ⟨hclosed, by intro e he; simp at he, fun _ h => h⟩
          | cons e es ihe =>
            intro acc hun hclosed
            rw [List.foldl_cons]
            have hsub1 : acc ⊆ dfsFuel g f2 e.toVertex acc :=
              subset_dfsFuel g f2 e.toVertex acc
            have hun1 : unvisited g (dfsFuel g f2 e.toVertex acc) ≤ n := by
              obtain ⟨ex, hex⟩ := dfsFuel_append g f2 e.toVertex acc
              rw [hex]
              exact le_trans (unvisited_anti g (List.subset_append_left acc ex)) hun
            have hclosed1 : ∀ x2 ∈ dfsFuel g f2 e.toVertex acc, x2 ∉ t ++ [v] →
                ∀ y2, stepRel g x2 y2 → y2 ∈ keysOf g →
                y2 ∈ dfsFuel g f2 e.toVertex acc := by
              intro x2 hx2 hx2t y2 hs2 hy2
              by_cases hx2acc : x2 ∈ acc
              · exact hsub1 (hclosed x2 hx2acc hx2t y2 hs2 hy2)
              · exact ih f2 e.toVertex acc hun (by omega) x2 hx2 hx2acc y2 hs2 hy2
            obtain ⟨hc2, ht2, hs2⟩ := ihe (dfsFuel g f2 e.toVertex acc) hun1 hclosed1
            refine ⟨hc2, ?_, fun a ha => hs2 (hsub1 ha)⟩
            intro e2 he2 hek
            rcases List.mem_cons.mp he2 with rfl | he2'
            · apply hs2
              obtain ⟨f3, rfl⟩ : ∃ k, f2 = k + 1 := ⟨f2 - 1, by omega⟩
              exact mem_dfsFuel_self g f3 e2.toVertex acc hek
            · exact ht2 e2 he2' hek
        have hzero : ∀ x2 ∈ t ++ [v], x2 ∉ t ++ [v] → ∀ y2, stepRel g x2 y2 →
            y2 ∈ keysOf g → y2 ∈ t ++ [v] := by
          intro x2 hx2 hx2t
          exact absurd hx2 hx2t
        obtain ⟨hRc, hRt, hRs⟩ := hfold vx.edges (t ++ [v]) (by omega) hzero
        by_cases hxv : x = v
        · subst hxv
          obtain ⟨vx2, hlk2, e, he, hety⟩ := hstep
          rw [hlk] at hlk2
          cases hlk2
          have := hRt e he (by rw [hety]; exact hy)
          rw [hety] at this
          exact this
        · refine hRc x hx ?_ y hstep hy
          intro hxin
          rcases List.mem_append.mp hxin with h | h
          · exact hxt h
          · rw [List.mem_singleton] at h
            exact hxv h

theorem reach_mem_depthFirst (g : Digraph V E) {v : Int} (hv : v ∈ keysOf g) :
    ∀ u, Reach g v u → u ∈ keysOf g → u ∈ depthFirst g v [] := by
  intro u hr
  unfold depthFirst
  induction hr with
  | refl => intro _; exact mem_dfsFuel_self g g.length v [] hv
  | tail h1 h2 ih =>
    rename_i b c
    intro hc
    have hbkeys : b ∈ keysOf g := by
      obtain ⟨vxb, hlkb, _⟩ := h2
      exact mapLookup_mem_keys hlkb
    have hbmem := ih hbkeys
    exact dfsFuel_closed g g.length (g.length + 1) v []
      (unvisited_le_length g []) (by omega) _ hbmem (by simp) _ h2 hc

theorem length_eq_iff_all_mem {tr ks : List Int} (hnd : tr.Nodup) (hknd : ks.Nodup)
    (hsub : ∀ x ∈ tr, x ∈ ks) :
    (ks.length = tr.length ↔ ∀ k ∈ ks, k ∈ tr) := by
  have hsubf : tr.toFinset ⊆ ks.toFinset := by
    intro a ha
    rw [List.mem_toFinset] at ha ⊢
    exact hsub a ha
  constructor
  · intro hlen k hk
    have hcards : ks.toFinset.card ≤ tr.toFinset.card := by
      rw [List.toFinset_card_of_nodup hnd, List.toFinset_card_of_nodup hknd]
      omega
    have heq := Finset.eq_of_subset_of_card_le hsubf hcards
    rw [← List.mem_toFinset, ← heq, List.mem_toFinset] at hk
    exact hk
  · intro hall
    have hsupf : ks.toFinset ⊆ tr.toFinset := by
      intro a ha
      rw [List.mem_toFinset] at ha ⊢
      exact hall a ha
    have heq := Finset.Subset.antisymm hsubf hsupf
    have := congrArg Finset.card heq
    rw [List.toFinset_card_of_nodup hnd, List.toFinset_card_of_nodup hknd] at this
    omega

/--
**C5.**  `isStronglyConnected()` returns true exactly when every vertex of the
graph reaches every vertex of the graph by following outgoing edges; the empty
graph and a single-vertex graph with no edges both yield true.
-/
theorem isStronglyConnected_iff (g : Digraph V E) (hwf : WfMap g) :
    (isStronglyConnected g = true ↔ ∀ u ∈ keysOf g, ∀ w ∈ keysOf g, Reach g u w) ∧
    isStronglyConnected ([] : Digraph V E) = true ∧
    (∀ (k : Int) (vi : V), isStronglyConnected ([(k, ⟨vi, []⟩)] : Digraph V E) = true) := by
  refine ⟨?_, by rfl, ?_⟩
  · unfold isStronglyConnected
    rw [List.all_eq_true]
    have hkeyslen : (keysOf g).length = vertexCount g := by simp [keysOf, vertexCount]
    have hkeysnd : (keysOf g).Nodup := hwf.nodup
    constructor
    · intro hall u hu w hw
      obtain ⟨p, hp, hp1⟩ := List.mem_map.mp hu
      have hbeq := hall p hp
      rw [beq_iff_eq] at hbeq
      have hnd : (depthFirst g p.1 []).Nodup := dfsFuel_nodup g _ _ [] (by simp)
      have hsubk : ∀ x ∈ depthFirst g p.1 [], x ∈ keysOf g := by
        intro x hx
        rcases dfsFuel_sound g _ p.1 [] x hx with h0 | ⟨hk, _⟩
        · simp at h0
        · exact hk
      have hlen : (keysOf g).length = (depthFirst g p.1 []).length := by omega
      have hall2 := (length_eq_iff_all_mem hnd hkeysnd hsubk).mp hlen
      have hwmem := hall2 w hw
      rcases dfsFuel_sound g _ p.1 [] w hwmem with h0 | ⟨_, hr⟩
      · simp at h0
      · rw [← hp1]
        exact hr
    · intro hreach p hp
      rw [beq_iff_eq]
      have hpk : p.1 ∈ keysOf g := List.mem_map_of_mem Prod.fst hp
      have hnd : (depthFirst g p.1 []).Nodup := dfsFuel_nodup g _ _ [] (by simp)
      have hsubk : ∀ x ∈ depthFirst g p.1 [], x ∈ keysOf g := by
        intro x hx
        rcases dfsFuel_sound g _ p.1 [] x hx with h0 | ⟨hk, _⟩
        · simp at h0
        · exact hk
      have hall2 : ∀ k ∈ keysOf g, k ∈ depthFirst g p.1 [] := by
        intro k hk
        exact reach_mem_depthFirst g hpk k (hreach p.1 hpk k hk) hk
      have := (length_eq_iff_all_mem hnd hkeysnd hsubk).mpr hall2
      omega
  · intro k vi
    have hlk : mapLookup [(k, (⟨vi, []⟩ : DigraphVertex V E))] k = some ⟨vi, []⟩ := by
      simp [mapLookup, List.find?]
    simp [isStronglyConnected, vertexCount, depthFirst, dfsFuel, hlk]

/-- A 3-cycle 1 → 2 → 3 → 1, strongly connected. -/
def gTri : Digraph Nat Nat :=
  [(1, ⟨0, [⟨1, 2, 0⟩]⟩), (2, ⟨0, [⟨2, 3, 0⟩]⟩), (3, ⟨0, [⟨3, 1, 0⟩]⟩)]

theorem isStronglyConnected_iff_witness :
    WfMap gTri ∧
    ((isStronglyConnected gTri = true ↔
        ∀ u ∈ keysOf gTri, ∀ w ∈ keysOf gTri, Reach gTri u w) ∧
      isStronglyConnected ([] : Digraph Nat Nat) = true ∧
      (∀ (k : Int) (vi : Nat), isStronglyConnected ([(k, ⟨vi, []⟩)] : Digraph Nat Nat) = true)) :=
  ⟨by unfold WfMap; decide, isStronglyConnected_iff gTri (by unfold WfMap; decide)⟩

theorem mapInsert_mem {k : Int} {vx : DigraphVertex V E} :
    ∀ (g : Digraph V E), ∀ q ∈ mapInsert g k vx, q = (k, vx) ∨ q ∈ g := by
  intro g
  induction g with
  | nil => intro q hq; simp [mapInsert] at hq; exact Or.inl hq
  | cons p g' ih =>
    intro q hq
    obtain ⟨k2, vx2⟩ := p
    simp only [mapInsert] at hq
    by_cases h1 : k < k2
    · rw [if_pos h1] at hq
      rcases List.mem_cons.mp hq with rfl | hq2
      · exact Or.inl rfl
      · exact Or.inr hq2
    · rw [if_neg h1] at hq
      by_cases h2 : k = k2
      · rw [if_pos h2] at hq
        exact Or.inr hq
      · rw [if_neg h2] at hq
        rcases List.mem_cons.mp hq with rfl | hq2
        · exact Or.inr (by simp)
        · rcases ih q hq2 with h | h
          · exact Or.inl h
          · exact Or.inr (List.mem_cons_of_mem _ h)

theorem keysOf_mapInsert_mem {k x : Int} {vx : DigraphVertex V E} :
    ∀ (g : Digraph V E), x ∈ keysOf (mapInsert g k vx) ↔ x = k ∨ x ∈ keysOf g := by
  intro g
  induction g with
  | nil => simp [mapInsert, keysOf]
  | cons p g' ih =>
    obtain ⟨k2, vx2⟩ := p
    simp only [mapInsert]
    by_cases h1 : k < k2
    · rw [if_pos h1]
      simp [keysOf]
    · rw [if_neg h1]
      by_cases h2 : k = k2
      · rw [if_pos h2]
        subst h2
        simp [keysOf]
      · rw [if_neg h2]
        simp only [keysOf, List.map_cons, List.mem_cons] at ih ⊢
        rw [ih]
        tauto

theorem mapInsert_sorted {k : Int} {vx : DigraphVertex V E} :
    ∀ (g : Digraph V E), WfMap g → WfMap (mapInsert g k vx) := by
  intro g
  induction g with
  | nil => intro _; simp [mapInsert, WfMap, keysOf]
  | cons p g' ih =>
    intro hwf
    obtain ⟨k2, vx2⟩ := p
    have hwf' : WfMap g' := (List.sorted_cons.mp hwf).2
    have hhead := (List.sorted_cons.mp hwf).1
    simp only [mapInsert]
    by_cases h1 : k < k2
    · rw [if_pos h1]
      unfold WfMap keysOf
      rw [List.map_cons, List.sorted_cons]
      constructor
      · intro b hb
        rcases List.mem_cons.mp hb with rfl | hb2
        · exact h1
        · exact lt_trans h1 (hhead b hb2)
      · exact hwf
    · rw [if_neg h1]
      by_cases h2 : k = k2
      · rw [if_pos h2]
        exact hwf
      · rw [if_neg h2]
        unfold WfMap keysOf
        rw [List.map_cons, List.sorted_cons]
        constructor
        · intro b hb
          rcases (keysOf_mapInsert_mem g').mp hb with rfl | hb2
          · omega
          · exact hhead b hb2
        · exact ih hwf'

theorem mem_mapErase {g1 : Digraph V E} {k : Int} {q : Int × DigraphVertex V E} :
    q ∈ mapErase g1 k ↔ q ∈ g1 ∧ q.1 ≠ k := by
  unfold mapErase
  rw [List.mem_filter]
  simp

theorem keysOf_mem_mapErase {g1 : Digraph V E} {k x : Int} :
    x ∈ keysOf (mapErase g1 k) ↔ x ∈ keysOf g1 ∧ x ≠ k := by
  unfold keysOf
  constructor
  · intro hx
    obtain ⟨q, hq, hq1⟩ := List.mem_map.mp hx
    obtain ⟨hqg, hqk⟩ := mem_mapErase.mp hq
    exact ⟨List.mem_map.mpr ⟨q, hqg, hq1⟩, hq1 ▸ hqk⟩
  · rintro ⟨hx, hxk⟩
    obtain ⟨q, hq, hq1⟩ := List.mem_map.mp hx
    exact List.mem_map.mpr ⟨q, mem_mapErase.mpr ⟨hq, hq1 ▸ hxk⟩, hq1⟩

theorem mapErase_sorted {g1 : Digraph V E} (hwf : WfMap g1) (k : Int) :
    WfMap (mapErase g1 k) := by
  unfold WfMap at hwf ⊢
  have hsub : List.Sublist (keysOf (mapErase g1 k)) (keysOf g1) :=
    (List.filter_sublist g1).map Prod.fst
  exact List.Pairwise.sublist hsub hwf

theorem length_filter_toVertex_count {v : Int} : ∀ es : List (DigraphEdge E),
    (es.filter (fun e => e.toVertex == v)).length =
      (es.map (fun e => e.toVertex)).count v := by
  intro es
  induction es with
  | nil => simp
  | cons e es ih =>
    rw [List.filter_cons, List.map_cons, List.count_cons]
    by_cases h : e.toVertex = v
    · rw [if_pos (by simp [h]), List.length_cons, ih]
      simp [h]
    · rw [if_neg (by simp [h]), ih]
      simp [h]

theorem nodup_filter_toVertex_le_one {v : Int} {es : List (DigraphEdge E)}
    (hnd : (es.map (fun e => e.toVertex)).Nodup) :
    (es.filter (fun e => e.toVertex == v)).length ≤ 1 := by
  rw [length_filter_toVertex_count]
  exact List.nodup_iff_count_le_one.mp hnd v
end DG

namespace DG
variable {V E : Type}

theorem mem_edgesAll_ex {g : Digraph V E} {pr : Int × Int} (h : pr ∈ edgesAll g) :
    ∃ q ∈ g, ∃ e ∈ q.2.edges, pr = (e.fromVertex, e.toVertex) := by
  simp only [edgesAll, List.mem_flatten] at h
  obtain ⟨l, hl, hpr⟩ := h
  obtain ⟨q, hq, rfl⟩ := List.mem_map.mp hl
  obtain ⟨e, he, hpe⟩ := List.mem_map.mp hpr
  exact ⟨q, hq, e, he, hpe.symm⟩

theorem addVertex_wfg {g : Digraph V E} (hwf : WfG g) (k : Int) (vi : V) :
    WfG (addVertex g k vi).1 := by
  unfold addVertex
  by_cases hc : mapContains g k = true
  · rw [if_pos hc]
    exact hwf
  · rw [if_neg hc]
    refine ⟨mapInsert_sorted g hwf.1, ?_⟩
    intro q hq
    rcases mapInsert_mem g q hq with rfl | hqg
    · exact ⟨by simp, by simp⟩
    · refine ⟨?_, (hwf.2 q hqg).2⟩
      intro e he
      refine ⟨((hwf.2 q hqg).1 e he).1, ?_⟩
      exact (keysOf_mapInsert_mem g).mpr (Or.inr ((hwf.2 q hqg).1 e he).2)

theorem addEdge_wfg {g : Digraph V E} (hwf : WfG g) (a b : Int) (ei : E) :
    WfG (addEdge g a b ei).1 := by
  by_cases hc : (!mapContains g a || !mapContains g b) = true
  · have heq : (addEdge g a b ei).1 = g := by
      unfold addEdge
      rw [if_pos hc]
    rw [heq]
    exact hwf
  · have hca : mapContains g a = true := by
      cases h : mapContains g a with
      | true => rfl
      | false => exact absurd (by simp [h]) hc
    have hcbb : mapContains g b = true := by
      cases h : mapContains g b with
      | true => rfl
      | false => exact absurd (by simp [h]) hc
    have hcb : b ∈ keysOf g := (mapContains_iff g b).mp hcbb
    cases hlk : mapLookup g a with
    | none =>
      have heq : (addEdge g a b ei).1 = g := by
        simp [addEdge, hca, hcbb, hlk]
      rw [heq]
      exact hwf
    | some vx =>
      by_cases hany : vx.edges.any (fun e => e.toVertex == b) = true
      · have heq : (addEdge g a b ei).1 = g := by
          simp [addEdge, hca, hcbb, hlk, hany]
        rw [heq]
        exact hwf
      · rw [Bool.not_eq_true] at hany
        have heq : (addEdge g a b ei).1 = g.map (fun p =>
            if p.1 = a then
              (p.1, (⟨p.2.vinfo, p.2.edges ++ [⟨a, b, ei⟩]⟩ : DigraphVertex V E))
            else p) := by
          simp [addEdge, hca, hcbb, hlk, hany]
        rw [heq]
        have hfk : ∀ p : Int × DigraphVertex V E, ((if p.1 = a then
            (p.1, (⟨p.2.vinfo, p.2.edges ++ [⟨a, b, ei⟩]⟩ : DigraphVertex V E))
            else p)).1 = p.1 := by
          intro p
          by_cases h : p.1 = a <;> simp [h]
        have hkeys := keysOf_map_keep g _ hfk
        rw [List.any_eq_false] at hany
        refine ⟨?_, ?_⟩
        · unfold WfMap
          rw [hkeys]
          exact hwf.1
        · intro q2 hq2
          obtain ⟨q, hq, rfl⟩ := List.mem_map.mp hq2
          by_cases hqa : q.1 = a
          · have hlkq : mapLookup g a = some q.2 := by
              rw [← hqa]
              exact mapLookup_of_mem hwf.1 hq
            rw [hlk] at hlkq
            have hq2vx : q.2 = vx := by
              injection hlkq with h
              exact h.symm
            constructor
            · intro e he
              simp only [if_pos hqa] at he ⊢
              rcases List.mem_append.mp he with he1 | he2
              · refine ⟨((hwf.2 q hq).1 e he1).1, ?_⟩
                rw [hkeys]
                exact ((hwf.2 q hq).1 e he1).2
              · rw [List.mem_singleton] at he2
                subst he2
                refine ⟨by simp [hqa], ?_⟩
                simp only
                rw [hkeys]
                exact hcb
            · simp only [if_pos hqa, List.map_append, List.map_cons, List.map_nil]
              rw [List.nodup_append]
              refine ⟨(hwf.2 q hq).2, List.nodup_singleton b, ?_⟩
              intro x hx
              simp only [List.mem_singleton]
              intro hxb
              subst hxb
              obtain ⟨e, he, hetov⟩ := List.mem_map.mp hx
              rw [hq2vx] at he
              have hb := hany e he
              rw [hetov] at hb
              simp at hb
          · simp only [if_neg hqa]
            refine ⟨?_, (hwf.2 q hq).2⟩
            intro e he
            refine ⟨((hwf.2 q hq).1 e he).1, ?_⟩
            rw [hkeys]
            exact ((hwf.2 q hq).1 e he).2
end DG

namespace DG
variable {V E : Type}

theorem removeVertex_wfg {g : Digraph V E} (hwf : WfG g) (v : Int) :
    WfG (removeVertex g v).1 ∧
    ((removeVertex g v).2 = none → v ∉ keysOf (removeVertex g v).1 ∧
      ∀ pr ∈ edgesAll (removeVertex g v).1, pr.1 ≠ v ∧ pr.2 ≠ v) := by
  by_cases hc : mapContains g v = true
  · have heq : removeVertex g v = (mapErase (g.map (fun p =>
        (p.1, DigraphVertex.mk p.2.vinfo
          (eraseLoop v (if p.1 = v then [] else p.2.edges)).1))) v, none) := by
      simp [removeVertex, hc]
    set t : Int × DigraphVertex V E → Int × DigraphVertex V E := fun p =>
      (p.1, DigraphVertex.mk p.2.vinfo
        (eraseLoop v (if p.1 = v then [] else p.2.edges)).1) with ht
    have hfk : ∀ p, (t p).1 = p.1 := fun p => rfl
    have hkeys : keysOf (g.map t) = keysOf g := keysOf_map_keep g t hfk
    have hwf1 : WfMap (g.map t) := by
      unfold WfMap
      rw [hkeys]
      exact hwf.1
    have hedge : ∀ q2 ∈ mapErase (g.map t) v,
        (∀ e ∈ q2.2.edges, e.fromVertex = q2.1 ∧ e.toVertex ∈ keysOf g ∧
          e.toVertex ≠ v) ∧ (q2.2.edges.map (fun e => e.toVertex)).Nodup ∧
          q2.1 ≠ v := by
      intro q2 hq2
      obtain ⟨hq2m, hq2v⟩ := mem_mapErase.mp hq2
      obtain ⟨q, hq, rfl⟩ := List.mem_map.mp hq2m
      have hqv : q.1 ≠ v := by simpa [ht] using hq2v
      have hes0 : (if q.1 = v then [] else q.2.edges) = q.2.edges := if_neg hqv
      have hcnt : ((q.2.edges).filter (fun e => e.toVertex == v)).length ≤ 1 :=
        nodup_filter_toVertex_le_one (hwf.2 q hq).2
      have hsub := eraseLoop_sublist (v := v) q.2.edges
      have hnomatch := eraseLoop_no_match (v := v) q.2.edges hcnt
      refine ⟨?_, ?_, hqv⟩
      · intro e he
        simp only [ht, hes0] at he
        have heq2 : e ∈ q.2.edges := hsub.mem he
        exact ⟨((hwf.2 q hq).1 e heq2).1, ((hwf.2 q hq).1 e heq2).2, hnomatch e he⟩
      · simp only [ht, hes0]
        exact List.Nodup.sublist (hsub.map (fun e => e.toVertex)) (hwf.2 q hq).2
    constructor
    · rw [heq]
      refine ⟨mapErase_sorted hwf1 v, ?_⟩
      intro q2 hq2
      obtain ⟨he1, he2, _⟩ := hedge q2 hq2
      refine ⟨?_, he2⟩
      intro e he
      refine ⟨(he1 e he).1, ?_⟩
      rw [keysOf_mem_mapErase, hkeys]
      exact ⟨(he1 e he).2.1, (he1 e he).2.2⟩
    · intro _
      constructor
      · rw [heq]
        simp only
        rw [keysOf_mem_mapErase]
        simp
      · intro pr hpr
        rw [heq] at hpr
        simp only at hpr
        obtain ⟨q2, hq2, e, he, rfl⟩ := mem_edgesAll_ex hpr
        obtain ⟨he1, _, hq2v⟩ := hedge q2 hq2
        exact ⟨by rw [(he1 e he).1]; exact hq2v, (he1 e he).2.2⟩
  · have heq : removeVertex g v = (g, some (.digraph "Vertex does not exist!")) := by
      simp [removeVertex, hc]
    rw [heq]
    exact ⟨hwf, by intro h; cases h⟩

theorem removeEdge_wfg {g : Digraph V E} (hwf : WfG g) (a b : Int) :
    WfG (removeEdge g a b).1 := by
  by_cases hc : (!mapContains g a || !mapContains g b) = true
  · have heq : (removeEdge g a b).1 = g := by
      unfold removeEdge
      rw [if_pos hc]
    rw [heq]
    exact hwf
  · have heq : (removeEdge g a b).1 = (g.map (fun p =>
        if p.1 = a then
          ((p.1, DigraphVertex.mk p.2.vinfo (eraseLoop b p.2.edges).1),
            (eraseLoop b p.2.edges).2)
        else ((p.1, p.2), false))).map Prod.fst := by
      unfold removeEdge
      rw [if_neg hc]
      by_cases hany : (g.map (fun p =>
          if p.1 = a then
            ((p.1, DigraphVertex.mk p.2.vinfo (eraseLoop b p.2.edges).1),
              (eraseLoop b p.2.edges).2)
          else ((p.1, p.2), false))).any Prod.snd = true
      · rw [if_pos hany]
      · rw [if_neg hany]
    rw [heq, List.map_map]
    set t : Int × DigraphVertex V E → Int × DigraphVertex V E := fun p =>
      if p.1 = a then (p.1, DigraphVertex.mk p.2.vinfo (eraseLoop b p.2.edges).1)
      else (p.1, p.2) with ht
    have hteq : (Prod.fst ∘ (fun p : Int × DigraphVertex V E =>
        if p.1 = a then
          ((p.1, DigraphVertex.mk p.2.vinfo (eraseLoop b p.2.edges).1),
            (eraseLoop b p.2.edges).2)
        else ((p.1, p.2), false))) = t := by
      funext p
      by_cases h : p.1 = a <;> simp [ht, h]
    rw [hteq]
    have hfk : ∀ p, (t p).1 = p.1 := by
      intro p
      by_cases h : p.1 = a <;> simp [ht, h]
    have hkeys : keysOf (g.map t) = keysOf g := keysOf_map_keep g t hfk
    refine ⟨?_, ?_⟩
    · unfold WfMap
      rw [hkeys]
      exact hwf.1
    · intro q2 hq2
      obtain ⟨q, hq, rfl⟩ := List.mem_map.mp hq2
      by_cases hqa : q.1 = a
      · have hsub := eraseLoop_sublist (v := b) q.2.edges
        constructor
        · intro e he
          simp only [ht, if_pos hqa] at he ⊢
          have heq2 : e ∈ q.2.edges := hsub.mem he
          refine ⟨((hwf.2 q hq).1 e heq2).1, ?_⟩
          rw [hkeys]
          exact ((hwf.2 q hq).1 e heq2).2
        · simp only [ht, if_pos hqa]
          exact List.Nodup.sublist (hsub.map (fun e => e.toVertex)) (hwf.2 q hq).2
      · simp only [ht, if_neg hqa]
        refine ⟨?_, (hwf.2 q hq).2⟩
        intro e he
        refine ⟨((hwf.2 q hq).1 e he).1, ?_⟩
        rw [hkeys]
        exact ((hwf.2 q hq).1 e he).2

/--
**C6.**  Every mutating operation preserves the structural invariants (edge
source equals its storing key, both endpoints present, no duplicate destination
under one source); after a successful `removeVertex(v)`, `v` is absent and no
edge reported by `edges()` has source or destination `v`.
-/
theorem operations_preserve_invariants (g : Digraph V E) (k a b : Int) (vi : V)
    (ei : E) (hwf : WfG g) :
    WfG (addVertex g k vi).1 ∧ WfG (addEdge g a b ei).1 ∧
    WfG (removeVertex g k).1 ∧ WfG (removeEdge g a b).1 ∧
    ((removeVertex g k).2 = none → k ∉ keysOf (removeVertex g k).1 ∧
      ∀ pr ∈ edgesAll (removeVertex g k).1, pr.1 ≠ k ∧ pr.2 ≠ k) :=
  ⟨addVertex_wfg hwf k vi, addEdge_wfg hwf a b ei, (removeVertex_wfg hwf k).1,
    removeEdge_wfg hwf a b, (removeVertex_wfg hwf k).2⟩

/-- A well-formed two-vertex graph with one edge, used as witness input. -/
def gW : Digraph Nat Nat := [(1, ⟨0, [⟨1, 2, 5⟩]⟩), (2, ⟨0, []⟩)]

theorem operations_preserve_invariants_witness :
    WfG gW ∧
    (WfG (addVertex gW 2 0).1 ∧ WfG (addEdge gW 2 1 7).1 ∧
      WfG (removeVertex gW 2 : Digraph Nat Nat × Option Err).1 ∧
      WfG (removeEdge gW 2 1).1 ∧
      ((removeVertex gW 2).2 = none → (2 : Int) ∉ keysOf (removeVertex gW 2).1 ∧
        ∀ pr ∈ edgesAll (removeVertex gW 2).1, pr.1 ≠ 2 ∧ pr.2 ≠ 2)) :=
  ⟨by unfold WfG WfMap; decide, operations_preserve_invariants gW 2 2 1 0 7
    (by unfold WfG WfMap; decide)⟩
end DG

namespace DG

theorem mutators_fail_atomic_witness :
    ((addVertex gW 1 0).2 ≠ none → (addVertex gW 1 0).1 = gW) ∧
    ((addEdge gW 1 2 9).2 ≠ none → (addEdge gW 1 2 9).1 = gW) ∧
    ((removeVertex gW 1).2 ≠ none → (removeVertex gW 1).1 = gW) ∧
    ((removeEdge gW 1 2).2 ≠ none → (removeEdge gW 1 2).1 = gW) ∧
    (mapContains gW 1 = true → (addVertex gW 1 0).2 ≠ none) ∧
    (WfG gW → ((1 : Int), (2 : Int)) ∈ edgesAll gW → (addEdge gW 1 2 9).2 ≠ none) :=
  mutators_fail_atomic gW 1 1 2 0 9

/-- A single isolated vertex, witness input for the self-loop claim. -/
def gSelf : Digraph Nat Nat := [(1, ⟨0, []⟩)]

theorem addEdge_self_loop_witness :
    WfG gSelf ∧ (1 : Int) ∈ keysOf gSelf ∧
    ((1 : Int), (1 : Int)) ∉ edgesAll gSelf ∧
    ((addEdge gSelf 1 1 7).2 = none ∧
      ((1 : Int), (1 : Int)) ∈ edgesAll (addEdge gSelf 1 1 7).1 ∧
      (∃ l, edgesFrom (addEdge gSelf 1 1 7).1 1 = .ok l ∧
        ((1 : Int), (1 : Int)) ∈ l) ∧
      edgeCount (addEdge gSelf 1 1 7).1 = edgeCount gSelf + 1 ∧
      (∃ n, edgeCountV gSelf 1 = .ok n ∧
        edgeCountV (addEdge gSelf 1 1 7).1 1 = .ok (n + 1)) ∧
      edgeInfo (addEdge gSelf 1 1 7).1 1 1 = .ok 7) :=
  ⟨by unfold WfG WfMap; decide, by decide, by decide,
    addEdge_self_loop gSelf 1 7 (by unfold WfG WfMap; decide) (by decide)
      (by decide)⟩

end DG
